import Mathlib

/-!
# Verification of the miniChessAI 5×5 chess engine

Shallow embedding of `miniChessAI.py` (class `MiniChess`) and proofs about it.

Conventions of the embedding:
* Python piece strings `'wK'`, `'bp'`, … become values of type `Piece`
  (first character = `Col`, second character = `PT`); the empty square `'.'`
  becomes `none : Sq`.
* The 5×5 board (a list of 5 lists of 5 strings in Python) becomes a total
  function `Fin 5 × Fin 5 → Sq`; concrete boards are built from the literal
  row lists via `boardOfRows`, mirroring `init_board`.
* Python integer indices are `Int`; the explicit bound checks
  `0 <= r < 5 and 0 <= c < 5` of the source are translated literally, and
  `getb` additionally guards its access, so in-bounds behaviour is exact.
* The mutable field `self.no_capture_count` is threaded as an explicit `ℕ`
  parameter/result; statistics fields (`states_explored`, …) do not influence
  any value the claims mention and are dropped.
* Scores mix Python ints/floats with `float('-inf')`/`float('inf')`.  All
  finite scores are exact rationals here, and the score type is
  `Score := WithBot (WithTop ℚ)` with `⊥`/`⊤` for the two infinities; Python's
  `<`, `<=`, `max`, `min` on these values coincide with the linear order of
  `Score`.
-/

/-- Piece colour: first character of a Python piece string (`'w'`/`'b'`). -/
inductive Col : Type
  | white
  | black
deriving DecidableEq, Repr

/-- Piece type: second character of a Python piece string
(`'K'`, `'Q'`, `'B'`, `'N'`, `'p'`). -/
inductive PT : Type
  | King
  | Queen
  | Bishop
  | Knight
  | Pawn
deriving DecidableEq, Repr

/-- A piece, i.e. a two-character Python piece string such as `'wK'`. -/
structure Piece : Type where
  col : Col
  pt : PT
deriving DecidableEq, Repr

/-- A board square: `none` is the empty square `'.'`. -/
abbrev Sq : Type := Option Piece

/-- The colour character `piece[0]` of a square's content:
`none` models the character `'.'` (taken from the empty square), and
`some c` models `'w'`/`'b'`.  Python compares these characters with
`==`/`!=`, which coincides with equality of `Option Col`. -/
def sqCol : Sq → Option Col :=
  Option.map Piece.col

/-- The 5×5 board, `board[row][col]`, as a total function on coordinates. -/
abbrev Board : Type := Fin 5 × Fin 5 → Sq

/-- A move `((start_row, start_col), (end_row, end_col))`. -/
abbrev Move : Type := (Int × Int) × (Int × Int)

/-- The game-state dictionary `{"board": …, "turn": …}`. -/
structure GameState : Type where
  board : Board
  turn : Col

instance : DecidableEq GameState := fun a b =>
  decidable_of_iff (a.board = b.board ∧ a.turn = b.turn)
    (by cases a; cases b; simp)

/-- Read `board[r][c]` for integer indices; all reads performed by the source
are either guarded by explicit `0 <= r < 5` checks (move generation) or reach
only in-bounds coordinates in the situations described by the claims, so the
out-of-bounds default `none` is never observed in any theorem below. -/
def getb (b : Board) (r c : Int) : Sq :=
  if h : 0 ≤ r ∧ r < 5 ∧ 0 ≤ c ∧ c < 5 then
    b (⟨r.toNat, by omega⟩, ⟨c.toNat, by omega⟩)
  else
    none

/-- Write `board[r][c] = v` for integer indices (no-op when out of bounds). -/
def setb (b : Board) (r c : Int) (v : Sq) : Board :=
  fun p => if ((p.1 : Int) = r ∧ (p.2 : Int) = c) then v else b p

/-- Coordinates lie on the 5×5 board: `0 <= r < 5 and 0 <= c < 5`. -/
def inB (r c : Int) : Prop :=
  0 ≤ r ∧ r < 5 ∧ 0 ≤ c ∧ c < 5

instance (r c : Int) : Decidable (inB r c) := by
  unfold inB; infer_instance

theorem getb_inB {b : Board} {r c : Int} (h : inB r c) :
    getb b r c = b (⟨r.toNat, by obtain ⟨_, _, _, _⟩ := h; omega⟩,
                    ⟨c.toNat, by obtain ⟨_, _, _, _⟩ := h; omega⟩) := by
  obtain ⟨h1, h2, h3, h4⟩ := h
  rw [getb, dif_pos ⟨h1, h2, h3, h4⟩]

theorem getb_setb_eq {b : Board} {r c : Int} (v : Sq) (h : inB r c) :
    getb (setb b r c v) r c = v := by
  obtain ⟨h1, h2, h3, h4⟩ := h
  rw [getb, dif_pos ⟨h1, h2, h3, h4⟩, setb]
  rw [if_pos]
  constructor <;> simp <;> omega

theorem getb_setb_ne {b : Board} {r c r' c' : Int} (v : Sq)
    (h : ¬(r' = r ∧ c' = c)) :
    getb (setb b r c v) r' c' = getb b r' c' := by
  by_cases hb : 0 ≤ r' ∧ r' < 5 ∧ 0 ≤ c' ∧ c' < 5
  · rw [getb, dif_pos hb, getb, dif_pos hb, setb]
    rw [if_neg]
    intro hc
    obtain ⟨hc1, hc2⟩ := hc
    simp only at hc1 hc2
    apply h
    constructor <;> omega
  · rw [getb, dif_neg hb, getb, dif_neg hb]

/-- Build a board from the literal list-of-rows form used by the source
(`init_board`); missing entries default to the empty square. -/
def boardOfRows (rows : List (List Sq)) : Board :=
  fun p => ((rows.getD p.1.1 []).getD p.2.1 none)

/-- `init_board`: the fixed starting position. -/
def init_boardF : GameState :=
  { board := boardOfRows
      [[some ⟨Col.black, PT.King⟩, some ⟨Col.black, PT.Queen⟩,
        some ⟨Col.black, PT.Bishop⟩, some ⟨Col.black, PT.Knight⟩, none],
       [none, none, some ⟨Col.black, PT.Pawn⟩, some ⟨Col.black, PT.Pawn⟩, none],
       [none, none, none, none, none],
       [none, some ⟨Col.white, PT.Pawn⟩, some ⟨Col.white, PT.Pawn⟩, none, none],
       [none, some ⟨Col.white, PT.Knight⟩, some ⟨Col.white, PT.Bishop⟩,
        some ⟨Col.white, PT.Queen⟩, some ⟨Col.white, PT.King⟩]],
    turn := Col.white }

/-! ## Move generation (`generate_*_moves`) -/

/-- The 8 king directions. -/
def kingDirsF : List (Int × Int) :=
  [(-1, -1), (-1, 0), (-1, 1), (0, -1), (0, 1), (1, -1), (1, 0), (1, 1)]

/-- `generate_king_moves`: one step in any direction onto an empty or
enemy-occupied square. -/
def generate_king_movesF (position : Int × Int) (b : Board) : List Move :=
  let row := position.1
  let col := position.2
  let piece_color := sqCol (getb b row col)
  kingDirsF.filterMap (fun d =>
    let new_row := row + d.1
    let new_col := col + d.2
    if inB new_row new_col then
      let target := getb b new_row new_col
      if target = none ∨ sqCol target ≠ piece_color then
        some ((row, col), (new_row, new_col))
      else none
    else none)

/-- The 8 knight offsets. -/
def knightDirsF : List (Int × Int) :=
  [(-2, -1), (-2, 1), (2, -1), (2, 1), (-1, -2), (-1, 2), (1, -2), (1, 2)]

/-- `generate_knight_moves`. -/
def generate_knight_movesF (position : Int × Int) (b : Board) : List Move :=
  let row := position.1
  let col := position.2
  let piece_color := sqCol (getb b row col)
  knightDirsF.filterMap (fun d =>
    let new_row := row + d.1
    let new_col := col + d.2
    if inB new_row new_col then
      let target := getb b new_row new_col
      if target = none ∨ sqCol target ≠ piece_color then
        some ((row, col), (new_row, new_col))
      else none
    else none)

/-- The `while` loop shared by `generate_rook_moves` and
`generate_bishop_moves`: walk from `(r, c)` in direction `d`, collecting empty
squares and stopping at the first occupied square, which is collected exactly
when its colour differs from the colour of the piece on `orig`.  The loop of
the source terminates because each iteration advances one square and the board
has 5 columns/rows; `fuel = 5` therefore never truncates it (proved as part of
the ray characterisation below). -/
def slideF (b : Board) (orig : Int × Int) (d : Int × Int) :
    Int × Int → Nat → List Move
  | _, 0 => []
  | (r, c), fuel + 1 =>
    if inB r c then
      if getb b r c = none then
        (orig, (r, c)) :: slideF b orig d (r + d.1, c + d.2) fuel
      else
        if sqCol (getb b r c) ≠ sqCol (getb b orig.1 orig.2) then
          [(orig, (r, c))]
        else []
    else []

/-- Rook directions: up, down, left, right. -/
def rookDirsF : List (Int × Int) := [(-1, 0), (1, 0), (0, -1), (0, 1)]

/-- Bishop directions: the four diagonals. -/
def bishopDirsF : List (Int × Int) := [(-1, -1), (-1, 1), (1, -1), (1, 1)]

/-- `generate_rook_moves`. -/
def generate_rook_movesF (position : Int × Int) (b : Board) : List Move :=
  rookDirsF.flatMap (fun d =>
    slideF b position d (position.1 + d.1, position.2 + d.2) 5)

/-- `generate_bishop_moves`. -/
def generate_bishop_movesF (position : Int × Int) (b : Board) : List Move :=
  bishopDirsF.flatMap (fun d =>
    slideF b position d (position.1 + d.1, position.2 + d.2) 5)

/-- `generate_queen_moves`: rook moves followed by bishop moves. -/
def generate_queen_movesF (position : Int × Int) (b : Board) : List Move :=
  generate_rook_movesF position b ++ generate_bishop_movesF position b

/-- `generate_pawn_moves`: one forward step onto an empty square, plus the two
diagonal captures onto enemy-occupied squares. -/
def generate_pawn_movesF (piece : Piece) (position : Int × Int) (b : Board) :
    List Move :=
  let row := position.1
  let col := position.2
  let direction : Int := if piece.col = Col.white then -1 else 1
  let forward : List Move :=
    if 0 ≤ row + direction ∧ row + direction < 5 ∧
        getb b (row + direction) col = none then
      [((row, col), (row + direction, col))]
    else []
  let captures : List Move :=
    ([-1, 1] : List Int).filterMap (fun dc =>
      let new_row := row + direction
      let new_col := col + dc
      if inB new_row new_col then
        if getb b new_row new_col ≠ none ∧
            sqCol (getb b new_row new_col) ≠ some piece.col then
          some ((row, col), (new_row, new_col))
        else none
      else none)
  forward ++ captures

/-- `generate_moves_for_piece`: dispatch on the piece-type character. -/
def generate_moves_for_pieceF (piece : Piece) (position : Int × Int)
    (b : Board) : List Move :=
  match piece.pt with
  | PT.King => generate_king_movesF position b
  | PT.Queen => generate_queen_movesF position b
  | PT.Bishop => generate_bishop_movesF position b
  | PT.Knight => generate_knight_movesF position b
  | PT.Pawn => generate_pawn_movesF piece position b

/-- `valid_moves`, translated from its definition at lines 105–126 of
`miniChessAI.py`.  In the source that definition is enclosed in a string
literal (lines 104 and 127), so the method does not actually exist on the
class — see the claim about `AttributeError` — but the text of the definition
is part of the repository and is embedded here verbatim: scan the board in
row-major order and concatenate the per-piece moves of the side to move. -/
def valid_movesF (gs : GameState) : List Move :=
  (List.range 5).flatMap (fun row =>
    (List.range 5).flatMap (fun col =>
      match getb gs.board (row : Int) (col : Int) with
      | none => []
      | some p =>
        if p.col = gs.turn then
          generate_moves_for_pieceF p ((row : Int), (col : Int)) gs.board
        else []))

/-- `is_valid_move`: the piece on the start square must exist, belong to the
side to move, and the move must be among its generated moves. -/
def is_valid_moveF (gs : GameState) (move : Move) : Bool :=
  let start := move.1
  match getb gs.board start.1 start.2 with
  | none => false
  | some p =>
    if p.col ≠ gs.turn then false
    else decide (move ∈ generate_moves_for_pieceF p start gs.board)

/-! ## Applying a move (`make_move`) and input parsing -/

/-- `make_move(game_state, move, is_real_move)`.

The Python function first deep-copies its argument, then performs every
assignment on the copy, so the argument itself is untouched (this aliasing
fact is modelled separately by `make_moveRun`).  The half-move counter
`self.no_capture_count` is passed in and returned explicitly; it is updated
only when `is_real_move` is true.  Note two faithful quirks of the source:
`was_capture` is computed *after* the start square has been cleared, and the
promotion test reads `piece[1]` — on an empty start square Python would raise
`IndexError` there; that unreachable-for-valid-moves path is modelled as "no
promotion" and no theorem below depends on it. -/
def make_moveF (gs : GameState) (move : Move) (is_real_move : Bool)
    (no_capture_count : ℕ) : GameState × ℕ :=
  let start := move.1
  let «end» := move.2
  let start_row := start.1
  let start_col := start.2
  let end_row := «end».1
  let end_col := «end».2
  let piece := getb gs.board start_row start_col
  let b1 := setb gs.board start_row start_col none
  let was_capture : Bool := decide (getb b1 end_row end_col ≠ none)
  let cnt' :=
    if is_real_move then (if was_capture then 0 else no_capture_count + 1)
    else no_capture_count
  let b2 := setb b1 end_row end_col piece
  let b3 :=
    match piece with
    | some pc =>
      if pc.pt = PT.Pawn ∧
          ((pc.col = Col.white ∧ end_row = 0) ∨
           (pc.col = Col.black ∧ end_row = 4)) then
        setb b2 end_row end_col (some ⟨pc.col, PT.Queen⟩)
      else b2
    | none => b2
  let turn' := if gs.turn = Col.white then Col.black else Col.white
  ({ board := b3, turn := turn' }, cnt')

/-- Explicit two-object store model of one `make_move` call.  The first
component tracks the caller's `game_state` object, the second the `new_state`
object created by `copy.deepcopy(game_state)` (value-equal to the argument,
but a distinct object).  Every assignment in the body of `make_move`
(lines 280–298 of the source) targets `new_state`, and this model routes each
of those writes to the second component only, so the first component is the
caller's object as it stands when the call returns. -/
def make_moveRun (gs : GameState) (move : Move) (is_real_move : Bool)
    (no_capture_count : ℕ) : GameState × GameState × ℕ :=
  let caller := gs
  let copied := make_moveF gs move is_real_move no_capture_count
  (caller, copied)

/-- The hypothetical state handed to the recursive search call, translated
from the loop bodies of `minimax` and `alpha_beta`:

    new_state = copy.deepcopy(temp_state)
    self.make_move(new_state, move, False)

`make_move` does not mutate its argument (it copies and returns a fresh
state), and its return value is discarded here, so `new_state` is exactly
`temp_state`; the enumerated move is never applied to the state that is
searched. -/
def searchChild (temp_state : GameState) (move : Move) : GameState :=
  let new_state := temp_state
  let _discarded := make_moveF new_state move false 0
  new_state

theorem searchChild_eq (temp_state : GameState) (move : Move) :
    searchChild temp_state move = temp_state := rfl

/-- `int(ch)` on a single character: its digit value, or a `ValueError`
(modelled as `none`) when the character is not a digit. -/
def charDigit (ch : Char) : Option Int :=
  if ch.isDigit then some ((ch.toNat : Int) - 48) else none

/-- Decode one coordinate token: Python evaluates
`(5 - int(tok[1]), ord(tok[0].upper()) - ord('A'))`; characters beyond index 1
are ignored, and a token of length `< 2` raises `IndexError` (caught by the
caller's bare `except`, modelled as `none`). -/
def parseSquare (tok : String) : Option (Int × Int) :=
  match tok.toList with
  | c0 :: c1 :: _ =>
    (charDigit c1).map (fun d => (5 - d, (c0.toUpper.toNat : Int) - 65))
  | _ => none

/-- Python's `str.split()` with no separator: break the text at runs of
whitespace, dropping empty fields.  (Implemented structurally so that it
evaluates by kernel reduction; `acc` holds the characters of the current
token in reverse.) -/
def pySplitAux : List Char → List Char → List String
  | [], acc => if acc.isEmpty then [] else [String.mk acc.reverse]
  | ch :: rest, acc =>
    if ch.isWhitespace then
      if acc.isEmpty then pySplitAux rest []
      else String.mk acc.reverse :: pySplitAux rest []
    else pySplitAux rest (ch :: acc)

/-- Python's `move.split()`. -/
def pySplit (s : String) : List String := pySplitAux s.toList []

/-- `parse_input`: split the text on whitespace (Python's `str.split()` drops
empty fields), require exactly two tokens (the tuple unpacking
`start, end = move.split()` raises otherwise), and decode each; every failure
path of the `try` block is caught by the bare `except` and yields `None`. -/
def parse_inputF (move : String) : Option Move :=
  match pySplit move with
  | [start, «end»] => do
    let s ← parseSquare start
    let e ← parseSquare «end»
    some (s, e)
  | _ => none

/-! ## Terminal detection (`check_for_draw`, `is_game_over`) -/

/-- `check_for_draw`: the half-move counter has reached 20. -/
def check_for_drawF (no_capture_count : ℕ) : Bool :=
  decide (20 ≤ no_capture_count)

/-- Does a piece occur anywhere on the board (`any('wK' in row for row in
board)`)? -/
def existsPiece (b : Board) (x : Piece) : Bool :=
  decide (∃ p : Fin 5 × Fin 5, b p = some x)

/-- `is_game_over`: black wins when the white king is gone, else white wins
when the black king is gone, else draw when the no-capture counter condition
holds, else the game continues. -/
def is_game_overF (b : Board) (no_capture_count : ℕ) : Bool × Option Col :=
  let white_king_exists := existsPiece b ⟨Col.white, PT.King⟩
  let black_king_exists := existsPiece b ⟨Col.black, PT.King⟩
  if ¬white_king_exists then (true, some Col.black)
  else if ¬black_king_exists then (true, some Col.white)
  else if check_for_drawF no_capture_count then (true, none)
  else (false, none)

/-! ## Scores -/

/-- Search scores: rationals extended with `float('-inf') = ⊥` and
`float('inf') = ⊤`. -/
abbrev Score : Type := WithBot (WithTop ℚ)

/-- A finite score. -/
def Score.ofQ (q : ℚ) : Score := ((q : WithTop ℚ) : Score)


/-! ## Static evaluation (`evaluate_board`) -/

/-- Number of squares holding exactly `x` (the per-piece counters of the
counting loop in `evaluate_board`). -/
def countSq (b : Board) (x : Sq) : ℕ :=
  ∑ p : Fin 5 × Fin 5, if b p = x then 1 else 0

/-- A 5×5 positional table given by its literal rows. -/
def tableOfRows (rows : List (List ℚ)) : Fin 5 → Fin 5 → ℚ :=
  fun r c => (rows.getD r.1 []).getD c.1 0

/-- `pawn_table`. -/
def pawn_tableF : Fin 5 → Fin 5 → ℚ :=
  tableOfRows
    [[0, 0, 0, 0, 0],
     [2, 2, 2.5, 2, 2],
     [1, 1.2, 1.5, 1.2, 1],
     [0.5, 0.6, 0.8, 0.6, 0.5],
     [0, 0, 0, 0, 0]]

/-- `knight_table`. -/
def knight_tableF : Fin 5 → Fin 5 → ℚ :=
  tableOfRows
    [[0, 0.5, 1, 0.5, 0],
     [0.5, 1, 1.5, 1, 0.5],
     [1, 1.5, 2, 1.5, 1],
     [0.5, 1, 1.5, 1, 0.5],
     [0, 0.5, 1, 0.5, 0]]

/-- `bishop_table`. -/
def bishop_tableF : Fin 5 → Fin 5 → ℚ :=
  tableOfRows
    [[0.5, 0, 0, 0, 0.5],
     [0, 1, 0.5, 1, 0],
     [0, 0.5, 1, 0.5, 0],
     [0, 1, 0.5, 1, 0],
     [0.5, 0, 0, 0, 0.5]]

/-- `queen_table`. -/
def queen_tableF : Fin 5 → Fin 5 → ℚ :=
  tableOfRows
    [[0, 0.2, 0.2, 0.2, 0],
     [0.2, 0.5, 0.5, 0.5, 0.2],
     [0.2, 0.5, 1, 0.5, 0.2],
     [0.2, 0.5, 0.5, 0.5, 0.2],
     [0, 0.2, 0.2, 0.2, 0]]

/-- `king_table`. -/
def king_tableF : Fin 5 → Fin 5 → ℚ :=
  tableOfRows
    [[0.5, 0, 0, 0, 0.5],
     [0, 0, 0, 0, 0],
     [0, 0, 0, 0, 0],
     [0, 0, 0, 0, 0],
     [0.5, 0, 0, 0, 0.5]]

/-- The positional table used for a piece type. -/
def tableFor : PT → Fin 5 → Fin 5 → ℚ
  | PT.Pawn => pawn_tableF
  | PT.Knight => knight_tableF
  | PT.Bishop => bishop_tableF
  | PT.Queen => queen_tableF
  | PT.King => king_tableF

/-- Row mirroring `4 - row` used for black's positional lookups. -/
def mirrorRow (r : Fin 5) : Fin 5 := ⟨4 - r.1, by omega⟩

/-- The accumulated `white_position` / `black_position` of the counting loop:
for every piece of colour `c`, a lookup in its type's table, with the row
mirrored for black. -/
def positionScore (b : Board) (c : Col) : ℚ :=
  ∑ p : Fin 5 × Fin 5,
    match b p with
    | some pc =>
      if pc.col = c then
        tableFor pc.pt (if c = Col.white then p.1 else mirrorRow p.1) p.2
      else 0
    | none => 0

/-- `white_material` / `black_material`:
pawns + 3·bishops + 3·knights + 9·queens + 999·kings. -/
def materialScore (b : Board) (c : Col) : ℚ :=
  (countSq b (some ⟨c, PT.Pawn⟩) : ℚ) + 3 * countSq b (some ⟨c, PT.Bishop⟩) +
    3 * countSq b (some ⟨c, PT.Knight⟩) + 9 * countSq b (some ⟨c, PT.Queen⟩) +
    999 * countSq b (some ⟨c, PT.King⟩)

/-- The `*_attacked` accumulation of the `e2` branch: for every move in the
given hypothetical move list whose destination holds a piece of colour
`target`, add that piece's threat weight (pawn 1, bishop/knight 3, queen 9,
king 50). -/
def attackedWeight (b : Board) (target : Col) (moves : List Move) : ℚ :=
  moves.foldl (fun acc mv =>
    match getb b mv.2.1 mv.2.2 with
    | some pc =>
      if pc.col = target then
        acc + (match pc.pt with
               | PT.Pawn => 1
               | PT.Bishop => 3
               | PT.Knight => 3
               | PT.Queen => 9
               | PT.King => 50)
      else acc
    | none => acc) 0

/-- Python exceptions that the embedded code can raise. -/
inductive PyErr : Type
  | attributeError
deriving DecidableEq, Repr

/-- A call to `self.valid_moves(...)`.  The definition of `valid_moves`
(lines 105–126 of `miniChessAI.py`) is enclosed in a string literal (quotes on
lines 104 and 127), so the class has no attribute `valid_moves` and every call
raises `AttributeError`. -/
def valid_movesCall (_ : GameState) : Except PyErr (List Move) :=
  .error PyErr.attributeError

/-- `evaluate_board(game_state)` with the configured heuristic string.
`e0` and `e1` are pure; the `e2` branch calls `self.valid_moves` (twice) and
therefore raises `AttributeError`; an unknown identifier falls through to the
`e0` formula. -/
def evaluate_boardE (heuristic : String) (gs : GameState) : Except PyErr ℚ :=
  let b := gs.board
  let white_material := materialScore b Col.white
  let black_material := materialScore b Col.black
  if heuristic = "e0" then
    .ok (white_material - black_material)
  else if heuristic = "e1" then
    .ok ((white_material + positionScore b Col.white) -
         (black_material + positionScore b Col.black))
  else if heuristic = "e2" then do
    let white_score := white_material + positionScore b Col.white
    let black_score := black_material + positionScore b Col.black
    let black_moves ← valid_movesCall { gs with turn := Col.black }
    let white_moves ← valid_movesCall { gs with turn := Col.white }
    let white_attacked := attackedWeight b Col.white black_moves
    let black_attacked := attackedWeight b Col.black white_moves
    .ok ((white_score - white_attacked * 0.5) -
         (black_score - black_attacked * 0.5))
  else
    .ok (white_material - black_material)

/-! ## The search as the code actually runs (`minimax`, `alpha_beta`,
`ai_move`)

These `…E` functions embed the methods as they exist at run time: the
expansion step calls the missing attribute `valid_moves` and raises.  The
deadline test at the top of each call is dropped (unlimited time), and the
statistics updates are pure bookkeeping with no influence on the returned
values.  `self.no_capture_count` (read by `is_game_over` via
`check_for_draw`) is the parameter `cnt`; search never updates it because it
applies moves with `is_real_move=False`. -/

/-- `minimax` as it exists at run time. -/
def minimaxE (cnt : ℕ) (heuristic : String) :
    GameState → ℕ → Bool → Except PyErr (Score × Option Move)
  | game_state, depth, maximizing_player =>
    let go := is_game_overF game_state.board cnt
    if go.1 then
      match go.2 with
      | none => .ok (Score.ofQ 0, none)
      | some Col.white => .ok (Score.ofQ 1000, none)
      | some Col.black => .ok (Score.ofQ (-1000), none)
    else
      match depth with
      | 0 => do
        let v ← evaluate_boardE heuristic game_state
        .ok (Score.ofQ v, none)
      | d + 1 => do
        let current_player := if maximizing_player then Col.white else Col.black
        let temp_state := { game_state with turn := current_player }
        let all_moves ← valid_movesCall temp_state
        if maximizing_player then
          all_moves.foldlM (fun acc mv => do
            let new_state := searchChild temp_state mv
            let res ← minimaxE cnt heuristic new_state d false
            if acc.1 < res.1 then pure (res.1, some mv) else pure acc)
            ((⊥ : Score), (none : Option Move))
        else
          all_moves.foldlM (fun acc mv => do
            let new_state := searchChild temp_state mv
            let res ← minimaxE cnt heuristic new_state d true
            if res.1 < acc.1 then pure (res.1, some mv) else pure acc)
            ((⊤ : Score), (none : Option Move))

/-- The maximizing loop of `alpha_beta` as it exists at run time (shared by
`alphaBetaE` below): fold over the moves, raising the running `alpha` and
breaking once `beta <= alpha`. -/
def abMaxLoopE (child : Move → Score → Except PyErr (Score × Option Move))
    (beta : Score) :
    List Move → (Score × Option Move) → Score →
      Except PyErr (Score × Option Move)
  | [], acc, _ => .ok acc
  | mv :: rest, acc, alpha => do
    let res ← child mv alpha
    let acc2 := if acc.1 < res.1 then (res.1, some mv) else acc
    let alpha' := max alpha acc2.1
    if beta ≤ alpha' then .ok acc2
    else abMaxLoopE child beta rest acc2 alpha'

/-- The minimizing loop of `alpha_beta` as it exists at run time. -/
def abMinLoopE (child : Move → Score → Except PyErr (Score × Option Move))
    (alpha : Score) :
    List Move → (Score × Option Move) → Score →
      Except PyErr (Score × Option Move)
  | [], acc, _ => .ok acc
  | mv :: rest, acc, beta => do
    let res ← child mv beta
    let acc2 := if res.1 < acc.1 then (res.1, some mv) else acc
    let beta' := min beta acc2.1
    if beta' ≤ alpha then .ok acc2
    else abMinLoopE child alpha rest acc2 beta'

/-- `alpha_beta` as it exists at run time. -/
def alphaBetaE (cnt : ℕ) (heuristic : String) :
    GameState → ℕ → Score → Score → Bool → Except PyErr (Score × Option Move)
  | game_state, depth, alpha, beta, maximizing_player =>
    let go := is_game_overF game_state.board cnt
    if go.1 then
      match go.2 with
      | none => .ok (Score.ofQ 0, none)
      | some Col.white => .ok (Score.ofQ 1000, none)
      | some Col.black => .ok (Score.ofQ (-1000), none)
    else
      match depth with
      | 0 => do
        let v ← evaluate_boardE heuristic game_state
        .ok (Score.ofQ v, none)
      | d + 1 => do
        let current_player := if maximizing_player then Col.white else Col.black
        let temp_state := { game_state with turn := current_player }
        let all_moves ← valid_movesCall temp_state
        if maximizing_player then
          abMaxLoopE
            (fun mv a =>
              alphaBetaE cnt heuristic (searchChild temp_state mv) d a beta
                false)
            beta all_moves ((⊥ : Score), none) alpha
        else
          abMinLoopE
            (fun mv bt =>
              alphaBetaE cnt heuristic (searchChild temp_state mv) d alpha bt
                true)
            alpha all_moves ((⊤ : Score), none) beta

/-- The iterative-deepening loop of `ai_move`.  `fuel` counts how many more
depths the wall-clock budget allows: the 70%/80% deadline tests of the source
terminate the loop after finitely many iterations, and each iteration runs the
selected search at the current depth and records `(move, score)` as the new
best whenever the returned move is not `None`. -/
def aiLoopE (use_alpha_beta : Bool) (cnt : ℕ) (heuristic : String)
    (gs : GameState) :
    ℕ → ℕ → Option Move → Option Score → Except PyErr (Option Move × Option Score)
  | 0, _, best_move, best_score => .ok (best_move, best_score)
  | fuel + 1, depth, best_move, best_score => do
    let res ←
      if use_alpha_beta then
        alphaBetaE cnt heuristic gs depth ⊥ ⊤ (decide (gs.turn = Col.white))
      else
        minimaxE cnt heuristic gs depth (decide (gs.turn = Col.white))
    match res.2 with
    | some mv =>
      aiLoopE use_alpha_beta cnt heuristic gs fuel (depth + 1) (some mv)
        (some res.1)
    | none =>
      aiLoopE use_alpha_beta cnt heuristic gs fuel (depth + 1) best_move
        best_score

/-- `ai_move` as it exists at run time: run iterative deepening from depth 1;
if no best move was recorded, fall back to the first element of
`self.valid_moves(...)` (or report "no move" when that list is empty); then
compute the heuristic score of the current position.  Returns
`(best_move, heuristic_score, search_score)`; the elapsed-time component and
console printing are dropped. -/
def ai_moveE (use_alpha_beta : Bool) (cnt : ℕ) (heuristic : String)
    (gs : GameState) (fuel : ℕ) :
    Except PyErr (Option Move × Option ℚ × Option Score) := do
  let res ← aiLoopE use_alpha_beta cnt heuristic gs fuel 1 none none
  match res.1 with
  | some mv => do
    let hs ← evaluate_boardE heuristic gs
    .ok (some mv, some hs, res.2)
  | none => do
    let vm ← valid_movesCall gs
    match vm with
    | [] => .ok (none, none, none)
    | mv :: _ => do
      let hs ← evaluate_boardE heuristic gs
      .ok (some mv, some hs, some (Score.ofQ 0))

/-! ## The search algorithms with `valid_moves` restored

The `…F` functions embed `minimax` and `alpha_beta` with the move enumeration
`valid_moves` taken from its (string-literal) definition — `valid_movesF` —
so that the algorithmic content of the two methods can be compared.  They are
the unlimited-time specialisation: the `time.time() - start_time >
self.max_time` branch never fires.  Everything else is line-for-line the
source, including the fact that the recursion descends into
`searchChild temp_state move` (the enumerated move is *not* applied, because
the source discards `make_move`'s return value).  The evaluation function is
an arbitrary parameter `heval`, covering every heuristic. -/

/-- `minimax` (unlimited time, `valid_moves` restored). -/
def minimaxF (cnt : ℕ) (heval : GameState → ℚ) :
    GameState → ℕ → Bool → Score × Option Move
  | game_state, depth, maximizing_player =>
    let go := is_game_overF game_state.board cnt
    if go.1 then
      match go.2 with
      | none => (Score.ofQ 0, none)
      | some Col.white => (Score.ofQ 1000, none)
      | some Col.black => (Score.ofQ (-1000), none)
    else
      match depth with
      | 0 => (Score.ofQ (heval game_state), none)
      | d + 1 =>
        let current_player := if maximizing_player then Col.white else Col.black
        let temp_state := { game_state with turn := current_player }
        let all_moves := valid_movesF temp_state
        if maximizing_player then
          all_moves.foldl (fun acc mv =>
            let new_state := searchChild temp_state mv
            let score := (minimaxF cnt heval new_state d false).1
            if acc.1 < score then (score, some mv) else acc)
            ((⊥ : Score), (none : Option Move))
        else
          all_moves.foldl (fun acc mv =>
            let new_state := searchChild temp_state mv
            let score := (minimaxF cnt heval new_state d true).1
            if score < acc.1 then (score, some mv) else acc)
            ((⊤ : Score), (none : Option Move))

/-- The maximizing loop of `alpha_beta` (unlimited time): fold over the
moves, raising the running `alpha` after each child and breaking once
`beta <= alpha`. -/
def abMaxLoop (child : Move → Score → Score × Option Move) (beta : Score) :
    List Move → (Score × Option Move) → Score → Score × Option Move
  | [], acc, _ => acc
  | mv :: rest, acc, alpha =>
    let score := (child mv alpha).1
    let acc2 := if acc.1 < score then (score, some mv) else acc
    let alpha' := max alpha acc2.1
    if beta ≤ alpha' then acc2
    else abMaxLoop child beta rest acc2 alpha'

/-- The minimizing loop of `alpha_beta` (unlimited time). -/
def abMinLoop (child : Move → Score → Score × Option Move) (alpha : Score) :
    List Move → (Score × Option Move) → Score → Score × Option Move
  | [], acc, _ => acc
  | mv :: rest, acc, beta =>
    let score := (child mv beta).1
    let acc2 := if score < acc.1 then (score, some mv) else acc
    let beta' := min beta acc2.1
    if beta' ≤ alpha then acc2
    else abMinLoop child alpha rest acc2 beta'

/-- `alpha_beta` (unlimited time, `valid_moves` restored). -/
def alphaBetaF (cnt : ℕ) (heval : GameState → ℚ) :
    GameState → ℕ → Score → Score → Bool → Score × Option Move
  | game_state, depth, alpha, beta, maximizing_player =>
    let go := is_game_overF game_state.board cnt
    if go.1 then
      match go.2 with
      | none => (Score.ofQ 0, none)
      | some Col.white => (Score.ofQ 1000, none)
      | some Col.black => (Score.ofQ (-1000), none)
    else
      match depth with
      | 0 => (Score.ofQ (heval game_state), none)
      | d + 1 =>
        let current_player := if maximizing_player then Col.white else Col.black
        let temp_state := { game_state with turn := current_player }
        let all_moves := valid_movesF temp_state
        if maximizing_player then
          abMaxLoop
            (fun mv a =>
              alphaBetaF cnt heval (searchChild temp_state mv) d a beta false)
            beta all_moves ((⊥ : Score), none) alpha
        else
          abMinLoop
            (fun mv bt =>
              alphaBetaF cnt heval (searchChild temp_state mv) d alpha bt true)
            alpha all_moves ((⊤ : Score), none) beta

/-! ## Concrete fixtures used by counterexamples and witnesses -/

/-- A board holding only the black king, at `(0,0)`. -/
def onlyBlackKingState : GameState :=
  { board := boardOfRows [[some ⟨Col.black, PT.King⟩]], turn := Col.white }

/-- A board holding only the white king, at `(0,0)`. -/
def onlyWhiteKingBoard : Board :=
  boardOfRows [[some ⟨Col.white, PT.King⟩]]

/-! ## C4 -/

/-- C4: `make_move` never mutates its game-state argument: in the two-object
store model of the call, the caller's object still has its original board and
turn when the call returns, and the returned state is the freshly produced
copy described by `make_moveF`. -/
theorem C4_make_move_pure (gs : GameState) (move : Move) (is_real_move : Bool)
    (cnt : ℕ) :
    (make_moveRun gs move is_real_move cnt).1.board = gs.board ∧
    (make_moveRun gs move is_real_move cnt).1.turn = gs.turn ∧
    (make_moveRun gs move is_real_move cnt).2 =
      make_moveF gs move is_real_move cnt :=
  ⟨rfl, rfl, rfl⟩

/-! ## C6 -/

/-- C6: `is_game_over` classifies in strict priority order: black wins when
the white king is absent (whatever the counter says), else white wins when
the black king is absent, else a draw exactly when the no-capture counter has
reached 20, else the game is not over. -/
theorem C6_is_game_over_classification :
    (∀ (b : Board) (cnt : ℕ),
        existsPiece b ⟨Col.white, PT.King⟩ = false →
        is_game_overF b cnt = (true, some Col.black)) ∧
    (∀ (b : Board) (cnt : ℕ),
        existsPiece b ⟨Col.white, PT.King⟩ = true →
        existsPiece b ⟨Col.black, PT.King⟩ = false →
        is_game_overF b cnt = (true, some Col.white)) ∧
    (∀ (b : Board) (cnt : ℕ),
        existsPiece b ⟨Col.white, PT.King⟩ = true →
        existsPiece b ⟨Col.black, PT.King⟩ = true →
        20 ≤ cnt → is_game_overF b cnt = (true, none)) ∧
    (∀ (b : Board) (cnt : ℕ),
        existsPiece b ⟨Col.white, PT.King⟩ = true →
        existsPiece b ⟨Col.black, PT.King⟩ = true →
        cnt < 20 → is_game_overF b cnt = (false, none)) := by
  refine ⟨?_, ?_, ?_, ?_⟩ <;> intro b cnt
  · intro hw
    simp [is_game_overF, hw]
  · intro hw hb
    simp [is_game_overF, hw, hb]
  · intro hw hb hcnt
    simp [is_game_overF, hw, hb, check_for_drawF, hcnt]
  · intro hw hb hcnt
    simp [is_game_overF, hw, hb, check_for_drawF, Nat.not_le.mpr hcnt]

/-- Witness for C6: concrete boards exercising all four branches; in the
first one the draw condition (counter 25) holds simultaneously with the
missing white king, and black still wins. -/
theorem C6_witness :
    is_game_overF onlyBlackKingState.board 25 = (true, some Col.black) ∧
    is_game_overF onlyWhiteKingBoard 3 = (true, some Col.white) ∧
    is_game_overF init_boardF.board 20 = (true, none) ∧
    is_game_overF init_boardF.board 19 = (false, none) := by
  refine ⟨?_, ?_, ?_, ?_⟩
  · exact C6_is_game_over_classification.1 onlyBlackKingState.board 25 (by decide)
  · exact C6_is_game_over_classification.2.1 onlyWhiteKingBoard 3 (by decide)
      (by decide)
  · exact C6_is_game_over_classification.2.2.1 init_boardF.board 20 (by decide)
      (by decide) (by decide)
  · exact C6_is_game_over_classification.2.2.2 init_boardF.board 19 (by decide)
      (by decide) (by decide)

/-! ## C10 -/

/-- C10: `parse_input` maps a two-character square token by sending the row
digit `d` to row `5 − d` and the (uppercased) column letter to
`ord(letter) − ord('A')`, so that `A`..`E` become columns 0..4; the concrete
move string `"B2 B3"` decodes to `((3,1),(2,1))`; and malformed move text of
every failing shape (wrong token count, short token, non-digit row) yields
the sentinel `none` — the bare `except` of the source turns every exception
of the `try` block into the sentinel, which the embedding realises by making
every fallible step explicit in the `Option` monad. -/
theorem C10_parse_input :
    (∀ c0 c1 : Char, c1.isDigit = true →
        parseSquare (String.mk [c0, c1]) =
          some (5 - ((c1.toNat : Int) - 48), (c0.toUpper.toNat : Int) - 65)) ∧
    (['A', 'B', 'C', 'D', 'E'].map
        (fun c0 => (c0.toUpper.toNat : Int) - 65)) = [0, 1, 2, 3, 4] ∧
    parse_inputF "B2 B3" = some ((3, 1), (2, 1)) ∧
    parse_inputF "" = none ∧
    parse_inputF "B2" = none ∧
    parse_inputF "B2B3" = none ∧
    parse_inputF "B2 B3 C4" = none ∧
    parse_inputF "BX B3" = none := by
  refine ⟨?_, by decide, by decide, by decide, by decide, by decide, by decide,
    by decide⟩
  intro c0 c1 h
  simp [parseSquare, String.toList, charDigit, h]

/-- Witness for C10: the token `"B2"` (digit hypothesis discharged at `'2'`)
decodes to row 3, column 1. -/
theorem C10_witness :
    ('2'.isDigit = true) ∧ parseSquare (String.mk ['B', '2']) = some (3, 1) := by
  refine ⟨by decide, ?_⟩
  have h := C10_parse_input.1 'B' '2' (by decide)
  simpa using h

/-! ## C2 -/

/-- C2 (evidence): in `minimax`/`alpha_beta`, the state handed to the
recursive call is `searchChild temp_state move`, and that is `temp_state`
itself for every move — the enumerated move is never applied, because the
source discards the state returned by `make_move`.  At the concrete initial
position and the enumerated move `B2→B3 = ((3,1),(2,1))`, actually applying
the move (what the spec prescribes for the child) changes square `(2,1)`,
while the state the recursion receives leaves it unchanged. -/
theorem C2_child_state_unchanged :
    (∀ (ts : GameState) (mv : Move), searchChild ts mv = ts) ∧
    searchChild init_boardF ((3, 1), (2, 1)) = init_boardF ∧
    getb (make_moveF init_boardF ((3, 1), (2, 1)) false 0).1.board 2 1 ≠
      getb init_boardF.board 2 1 := by
  refine ⟨fun ts mv => rfl, rfl, by decide⟩

/-! ## C1 -/

/-- Binding an `Except.error` short-circuits (exception propagation). -/
theorem pyerrBindError {α β : Type} (e : PyErr) (f : α → Except PyErr β) :
    (Except.error e : Except PyErr α) >>= f = Except.error e := rfl

/-- Binding an `Except.ok` continues normally. -/
theorem pyerrBindOk {α β : Type} (a : α) (f : α → Except PyErr β) :
    (Except.ok a : Except PyErr α) >>= f = f a := rfl

/-- A `minimax` call on a non-terminal state with depth ≥ 1 reaches the
expansion step and raises `AttributeError` at `self.valid_moves(...)`. -/
theorem minimaxE_succ_err (cnt : ℕ) (heuristic : String) (gs : GameState)
    (d : ℕ) (m : Bool) (hgo : (is_game_overF gs.board cnt).1 = false) :
    minimaxE cnt heuristic gs (d + 1) m = .error PyErr.attributeError := by
  rw [minimaxE]
  simp only [hgo, Bool.false_eq_true, if_false, valid_movesCall,
    pyerrBindError]

/-- Likewise for `alpha_beta`, for every window. -/
theorem alphaBetaE_succ_err (cnt : ℕ) (heuristic : String) (gs : GameState)
    (d : ℕ) (alpha beta : Score) (m : Bool)
    (hgo : (is_game_overF gs.board cnt).1 = false) :
    alphaBetaE cnt heuristic gs (d + 1) alpha beta m =
      .error PyErr.attributeError := by
  rw [alphaBetaE]
  simp only [hgo, Bool.false_eq_true, if_false, valid_movesCall,
    pyerrBindError]

/-- Whenever `minimax` returns normally, the returned move is `None`
(terminal positions and depth 0 are the only normal returns, and the
expansion step always raises). -/
theorem minimaxE_ok_none (cnt : ℕ) (heuristic : String) (gs : GameState)
    (d : ℕ) (m : Bool) (r : Score × Option Move)
    (h : minimaxE cnt heuristic gs d m = .ok r) : r.2 = none := by
  by_cases hgo : (is_game_overF gs.board cnt).1 = true
  · rw [minimaxE.eq_def] at h
    simp only [hgo, if_true] at h
    rcases hw : (is_game_overF gs.board cnt).2 with _ | c
    · rw [hw] at h
      cases h
      rfl
    · cases c <;> rw [hw] at h <;> cases h <;> rfl
  · have hgo' : (is_game_overF gs.board cnt).1 = false := by
      simpa using hgo
    match d with
    | 0 =>
      rw [minimaxE.eq_def] at h
      simp only [hgo', Bool.false_eq_true, if_false] at h
      rcases he : evaluate_boardE heuristic gs with e | v <;> rw [he] at h
      · simp only [pyerrBindError] at h
        cases h
      · simp only [pyerrBindOk] at h
        cases h
        rfl
    | d' + 1 =>
      rw [minimaxE_succ_err cnt heuristic gs d' m hgo'] at h
      cases h

/-- Likewise for `alpha_beta`. -/
theorem alphaBetaE_ok_none (cnt : ℕ) (heuristic : String) (gs : GameState)
    (d : ℕ) (alpha beta : Score) (m : Bool) (r : Score × Option Move)
    (h : alphaBetaE cnt heuristic gs d alpha beta m = .ok r) : r.2 = none := by
  by_cases hgo : (is_game_overF gs.board cnt).1 = true
  · rw [alphaBetaE.eq_def] at h
    simp only [hgo, if_true] at h
    rcases hw : (is_game_overF gs.board cnt).2 with _ | c
    · rw [hw] at h
      cases h
      rfl
    · cases c <;> rw [hw] at h <;> cases h <;> rfl
  · have hgo' : (is_game_overF gs.board cnt).1 = false := by
      simpa using hgo
    match d with
    | 0 =>
      rw [alphaBetaE.eq_def] at h
      simp only [hgo', Bool.false_eq_true, if_false] at h
      rcases he : evaluate_boardE heuristic gs with e | v <;> rw [he] at h
      · simp only [pyerrBindError] at h
        cases h
      · simp only [pyerrBindOk] at h
        cases h
        rfl
    | d' + 1 =>
      rw [alphaBetaE_succ_err cnt heuristic gs d' alpha beta m hgo'] at h
      cases h

/-- The iterative-deepening loop, started with no recorded best move, either
exhausts its time budget still holding no best move or propagates
`AttributeError` — no search iteration can ever hand it a move. -/
theorem aiLoopE_no_move (use_alpha_beta : Bool) (cnt : ℕ) (heuristic : String)
    (gs : GameState) :
    ∀ (fuel depth : ℕ) (bs : Option Score),
      (∃ bs', aiLoopE use_alpha_beta cnt heuristic gs fuel depth none bs =
        .ok (none, bs')) ∨
      aiLoopE use_alpha_beta cnt heuristic gs fuel depth none bs =
        .error PyErr.attributeError := by
  intro fuel
  induction fuel with
  | zero => intro depth bs; exact Or.inl ⟨bs, rfl⟩
  | succ fuel ih =>
    intro depth bs
    have hstep :
        aiLoopE use_alpha_beta cnt heuristic gs (fuel + 1) depth none bs =
          .error PyErr.attributeError ∨
        aiLoopE use_alpha_beta cnt heuristic gs (fuel + 1) depth none bs =
          aiLoopE use_alpha_beta cnt heuristic gs fuel (depth + 1) none bs := by
      rw [aiLoopE]
      rcases Bool.eq_false_or_eq_true use_alpha_beta with hab | hab <;>
        simp only [hab, Bool.false_eq_true, if_false, if_true]
      · rcases hr : alphaBetaE cnt heuristic gs depth ⊥ ⊤
            (decide (gs.turn = Col.white)) with e | r
        · left
          cases e
          simp only [hr, pyerrBindError]
        · right
          have hnone : r.2 = none := alphaBetaE_ok_none _ _ _ _ _ _ _ _ hr
          simp only [hr, pyerrBindOk, hnone]
      · rcases hr : minimaxE cnt heuristic gs depth (decide (gs.turn = Col.white))
          with e | r
        · left
          cases e
          simp only [hr, pyerrBindError]
        · right
          have hnone : r.2 = none := minimaxE_ok_none _ _ _ _ _ _ hr
          simp only [hr, pyerrBindOk, hnone]
    rcases hstep with hstep | hstep
    · exact Or.inr hstep
    · rw [hstep]
      exact ih (depth + 1) bs

/-- C1 (amended): with the deadline never reached, `minimax` and `alpha_beta`
raise `AttributeError` on every non-terminal state at every depth ≥ 1 (for
every heuristic, counter value and window); every `e2` evaluation raises
`AttributeError`; and every `ai_move` invocation raises `AttributeError`
regardless of the state (through the search on non-terminal states, through
the first-valid-move fallback otherwise) — but not literally *every*
invocation of `minimax`/`alpha_beta` fails: terminal states, and depth 0
under `e0`/`e1`, return normally (see the counterexample). -/
theorem C1_missing_valid_moves :
    (∀ (cnt : ℕ) (heuristic : String) (gs : GameState) (d : ℕ) (m : Bool),
        (is_game_overF gs.board cnt).1 = false →
        minimaxE cnt heuristic gs (d + 1) m = .error PyErr.attributeError) ∧
    (∀ (cnt : ℕ) (heuristic : String) (gs : GameState) (d : ℕ)
        (alpha beta : Score) (m : Bool),
        (is_game_overF gs.board cnt).1 = false →
        alphaBetaE cnt heuristic gs (d + 1) alpha beta m =
          .error PyErr.attributeError) ∧
    (∀ gs : GameState,
        evaluate_boardE "e2" gs = .error PyErr.attributeError) ∧
    (∀ (use_alpha_beta : Bool) (cnt : ℕ) (heuristic : String)
        (gs : GameState) (fuel : ℕ),
        ai_moveE use_alpha_beta cnt heuristic gs fuel =
          .error PyErr.attributeError) := by
  refine ⟨minimaxE_succ_err, fun cnt h gs d a b m hgo =>
    alphaBetaE_succ_err cnt h gs d a b m hgo, fun gs => rfl, ?_⟩
  intro useAB cnt heuristic gs fuel
  rw [ai_moveE]
  rcases aiLoopE_no_move useAB cnt heuristic gs fuel 1 none with ⟨bs', hr⟩ | hr
  · rw [hr]
    simp only [pyerrBindOk, valid_movesCall, pyerrBindError]
  · rw [hr]
    simp only [pyerrBindError]

/-- Witness for C1 (amended), at the initial position: depth-1 `minimax` and
`alpha_beta`, the `e2` evaluation, and `ai_move` (3 deepening iterations) all
raise `AttributeError`. -/
theorem C1_witness :
    minimaxE 0 "e0" init_boardF 1 true = .error PyErr.attributeError ∧
    alphaBetaE 0 "e0" init_boardF 1 ⊥ ⊤ true = .error PyErr.attributeError ∧
    evaluate_boardE "e2" init_boardF = .error PyErr.attributeError ∧
    ai_moveE true 0 "e0" init_boardF 3 = .error PyErr.attributeError :=
  ⟨C1_missing_valid_moves.1 0 "e0" init_boardF 0 true (by decide),
   C1_missing_valid_moves.2.1 0 "e0" init_boardF 0 ⊥ ⊤ true (by decide),
   C1_missing_valid_moves.2.2.1 init_boardF,
   C1_missing_valid_moves.2.2.2 true 0 "e0" init_boardF 3⟩

/-- C1 (counterexample): not every invocation fails for every game state —
on a board whose white king is gone the game is already over, so `minimax`
returns normally (score −1000, no move) without ever touching
`valid_moves`. -/
theorem C1_counterexample :
    minimaxE 0 "e0" onlyBlackKingState 3 true =
      .ok (Score.ofQ (-1000), none) := rfl

/-! ## The sliding-ray characterisation (C7/C8 machinery) -/

/-- Characterisation of the sliding `while` loop: with `fuel` iterations left
and the walk standing at `start`, a move is produced exactly for the
destinations `start + k·d` (`k < fuel`) such that every position of the walk
up to `k` is in bounds, every strictly earlier position is empty, and the
destination itself is empty or differently coloured from the piece on
`orig`. -/
theorem slideF_mem (b : Board) (orig : Int × Int) (d : Int × Int) :
    ∀ (fuel : ℕ) (start : Int × Int) (mv : Move),
      mv ∈ slideF b orig d start fuel ↔
      ∃ k : ℕ, k < fuel ∧
        mv = (orig, (start.1 + (k : ℤ) * d.1, start.2 + (k : ℤ) * d.2)) ∧
        (∀ j : ℕ, j ≤ k →
          inB (start.1 + (j : ℤ) * d.1) (start.2 + (j : ℤ) * d.2)) ∧
        (∀ j : ℕ, j < k →
          getb b (start.1 + (j : ℤ) * d.1) (start.2 + (j : ℤ) * d.2) = none) ∧
        (getb b (start.1 + (k : ℤ) * d.1) (start.2 + (k : ℤ) * d.2) = none ∨
          sqCol (getb b (start.1 + (k : ℤ) * d.1) (start.2 + (k : ℤ) * d.2)) ≠
            sqCol (getb b orig.1 orig.2)) := by
  intro fuel
  induction fuel with
  | zero =>
    intro start mv
    simp [slideF]
  | succ fuel ih =>
    rintro ⟨r, c⟩ mv
    have er : ∀ j : ℕ, r + d.1 + (j : ℤ) * d.1 = r + ((j + 1 : ℕ) : ℤ) * d.1 := by
      intro j
      push_cast
      ring
    have ec : ∀ j : ℕ, c + d.2 + (j : ℤ) * d.2 = c + ((j + 1 : ℕ) : ℤ) * d.2 := by
      intro j
      push_cast
      ring
    rw [slideF]
    by_cases hin : inB r c
    · rw [if_pos hin]
      by_cases hemp : getb b r c = none
      · rw [if_pos hemp]
        simp only [List.mem_cons]
        constructor
        · rintro (rfl | hmem)
          · refine ⟨0, by omega, by simp, ?_, by omega, Or.inl (by simpa)⟩
            intro j hj
            interval_cases j
            simpa using hin
          · obtain ⟨k, hk, hmv, hinh, hempi, hlast⟩ :=
              (ih (r + d.1, c + d.2) mv).mp hmem
            dsimp only at hmv hinh hempi hlast
            refine ⟨k + 1, by omega, ?_, ?_, ?_, ?_⟩
            · rw [hmv, er k, ec k]
            · intro j hj
              match j with
              | 0 => simpa using hin
              | j' + 1 =>
                have h := hinh j' (by omega)
                rw [er j', ec j'] at h
                exact h
            · intro j hj
              match j with
              | 0 => simpa using hemp
              | j' + 1 =>
                have h := hempi j' (by omega)
                rw [er j', ec j'] at h
                exact h
            · rw [← er k, ← ec k]
              exact hlast
        · rintro ⟨k, hk, hmv, hinh, hempi, hlast⟩
          match k with
          | 0 =>
            left
            simpa using hmv
          | k' + 1 =>
            right
            refine (ih (r + d.1, c + d.2) mv).mpr
              ⟨k', by omega, ?_, ?_, ?_, ?_⟩ <;> dsimp only
            · rw [hmv, ← er k', ← ec k']
            · intro j hj
              have h := hinh (j + 1) (by omega)
              rw [← er j, ← ec j] at h
              exact h
            · intro j hj
              have h := hempi (j + 1) (by omega)
              rw [← er j, ← ec j] at h
              exact h
            · rw [er k', ec k']
              exact hlast
      · rw [if_neg hemp]
        by_cases hcol :
            sqCol (getb b r c) ≠ sqCol (getb b orig.1 orig.2)
        · rw [if_pos hcol]
          simp only [List.mem_singleton]
          constructor
          · rintro rfl
            refine ⟨0, by omega, by simp, ?_, by omega, Or.inr (by simpa)⟩
            intro j hj
            interval_cases j
            simpa using hin
          · rintro ⟨k, hk, hmv, hinh, hempi, hlast⟩
            match k with
            | 0 => simpa using hmv
            | k' + 1 =>
              exact absurd (by simpa using hempi 0 (by omega)) hemp
        · rw [if_neg hcol]
          simp only [List.not_mem_nil, false_iff, not_exists]
          rintro k ⟨hk, hmv, hinh, hempi, hlast⟩
          match k with
          | 0 =>
            rcases hlast with hl | hl
            · exact hemp (by simpa using hl)
            · exact hcol (by simpa using hl)
          | k' + 1 =>
            exact absurd (by simpa using hempi 0 (by omega)) hemp
    · rw [if_neg hin]
      simp only [List.not_mem_nil, false_iff, not_exists]
      rintro k ⟨hk, hmv, hinh, hempi, hlast⟩
      exact hin (by simpa using hinh 0 (by omega))

/-! ## C7 -/

/-- King moves never land on a square of the moving piece's own colour. -/
theorem generate_king_moves_not_own (b : Board) (pos : Int × Int) (p : Piece)
    (h : getb b pos.1 pos.2 = some p) :
    ∀ mv ∈ generate_king_movesF pos b,
      sqCol (getb b mv.2.1 mv.2.2) ≠ some p.col := by
  intro mv hmv
  simp only [generate_king_movesF, List.mem_filterMap] at hmv
  obtain ⟨dd, hdd, hsome⟩ := hmv
  by_cases h1 : inB (pos.1 + dd.1) (pos.2 + dd.2)
  · rw [if_pos h1] at hsome
    by_cases h2 : getb b (pos.1 + dd.1) (pos.2 + dd.2) = none ∨
        sqCol (getb b (pos.1 + dd.1) (pos.2 + dd.2)) ≠
          sqCol (getb b pos.1 pos.2)
    · rw [if_pos h2] at hsome
      cases hsome
      rcases h2 with h2 | h2
      · simp [h2, sqCol]
      · rw [h] at h2
        simpa [sqCol] using h2
    · rw [if_neg h2] at hsome
      cases hsome
  · rw [if_neg h1] at hsome
    cases hsome

/-- Knight moves never land on a square of the moving piece's own colour. -/
theorem generate_knight_moves_not_own (b : Board) (pos : Int × Int) (p : Piece)
    (h : getb b pos.1 pos.2 = some p) :
    ∀ mv ∈ generate_knight_movesF pos b,
      sqCol (getb b mv.2.1 mv.2.2) ≠ some p.col := by
  intro mv hmv
  simp only [generate_knight_movesF, List.mem_filterMap] at hmv
  obtain ⟨dd, hdd, hsome⟩ := hmv
  by_cases h1 : inB (pos.1 + dd.1) (pos.2 + dd.2)
  · rw [if_pos h1] at hsome
    by_cases h2 : getb b (pos.1 + dd.1) (pos.2 + dd.2) = none ∨
        sqCol (getb b (pos.1 + dd.1) (pos.2 + dd.2)) ≠
          sqCol (getb b pos.1 pos.2)
    · rw [if_pos h2] at hsome
      cases hsome
      rcases h2 with h2 | h2
      · simp [h2, sqCol]
      · rw [h] at h2
        simpa [sqCol] using h2
    · rw [if_neg h2] at hsome
      cases hsome
  · rw [if_neg h1] at hsome
    cases hsome

/-- Sliding moves never land on a square of the colour of the piece on the
origin. -/
theorem slideF_not_own (b : Board) (orig : Int × Int) (d : Int × Int)
    (fuel : ℕ) (start : Int × Int) (p : Piece)
    (h : getb b orig.1 orig.2 = some p) :
    ∀ mv ∈ slideF b orig d start fuel,
      sqCol (getb b mv.2.1 mv.2.2) ≠ some p.col := by
  intro mv hmv
  obtain ⟨k, hk, hmv, hinh, hempi, hlast⟩ :=
    (slideF_mem b orig d fuel start mv).mp hmv
  subst hmv
  dsimp only
  rcases hlast with hl | hl
  · simp [hl, sqCol]
  · rw [h] at hl
    simpa [sqCol] using hl

/-- Pawn moves never land on a square of the pawn's own colour. -/
theorem generate_pawn_moves_not_own (b : Board) (pos : Int × Int) (p : Piece) :
    ∀ mv ∈ generate_pawn_movesF p pos b,
      sqCol (getb b mv.2.1 mv.2.2) ≠ some p.col := by
  intro mv hmv
  simp only [generate_pawn_movesF, List.mem_append, List.mem_filterMap] at hmv
  rcases hmv with hf | ⟨dc, hdc, hsome⟩
  · set dir : ℤ := if p.col = Col.white then -1 else 1 with hdir
    by_cases h1 : 0 ≤ pos.1 + dir ∧ pos.1 + dir < 5 ∧
        getb b (pos.1 + dir) pos.2 = none
    · rw [if_pos h1] at hf
      simp only [List.mem_singleton] at hf
      subst hf
      dsimp only
      simp [h1.2.2, sqCol]
    · rw [if_neg h1] at hf
      cases hf
  · by_cases h1 : inB (pos.1 + (if p.col = Col.white then (-1 : ℤ) else 1))
        (pos.2 + dc)
    · rw [if_pos h1] at hsome
      by_cases h2 : getb b (pos.1 + (if p.col = Col.white then (-1 : ℤ) else 1))
            (pos.2 + dc) ≠ none ∧
          sqCol (getb b (pos.1 + (if p.col = Col.white then (-1 : ℤ) else 1))
            (pos.2 + dc)) ≠ some p.col
      · rw [if_pos h2] at hsome
        cases hsome
        exact h2.2
      · rw [if_neg h2] at hsome
        cases hsome
    · rw [if_neg h1] at hsome
      cases hsome

/-- C7: for every board, every occupied square, and every move produced by
the per-piece move generator for the piece on that square, the destination
square never holds a piece of the moving piece's own colour. -/
theorem C7_no_own_color_destination (b : Board) (pos : Int × Int) (p : Piece)
    (h : getb b pos.1 pos.2 = some p) :
    ∀ mv ∈ generate_moves_for_pieceF p pos b,
      sqCol (getb b mv.2.1 mv.2.2) ≠ some p.col := by
  intro mv hmv
  have hrook : ∀ mv ∈ generate_rook_movesF pos b,
      sqCol (getb b mv.2.1 mv.2.2) ≠ some p.col := by
    intro mv hmv
    simp only [generate_rook_movesF, List.mem_flatMap] at hmv
    obtain ⟨dd, hdd, hmem⟩ := hmv
    exact slideF_not_own b pos dd 5 _ p h mv hmem
  have hbishop : ∀ mv ∈ generate_bishop_movesF pos b,
      sqCol (getb b mv.2.1 mv.2.2) ≠ some p.col := by
    intro mv hmv
    simp only [generate_bishop_movesF, List.mem_flatMap] at hmv
    obtain ⟨dd, hdd, hmem⟩ := hmv
    exact slideF_not_own b pos dd 5 _ p h mv hmem
  rcases hp : p.pt with _ | _ | _ | _ | _ <;>
    rw [generate_moves_for_pieceF, hp] at hmv
  · exact generate_king_moves_not_own b pos p h mv hmv
  · rcases List.mem_append.mp hmv with hq | hq
    · exact hrook mv hq
    · exact hbishop mv hq
  · exact hbishop mv hmv
  · exact generate_knight_moves_not_own b pos p h mv hmv
  · exact generate_pawn_moves_not_own b pos p mv hmv

/-- Witness for C7: the white queen on `(4,3)` of the initial board can
capture up the D-file on `(1,3)`, and that destination indeed does not hold a
white piece. -/
theorem C7_witness :
    getb init_boardF.board 4 3 = some ⟨Col.white, PT.Queen⟩ ∧
    (((4 : ℤ), (3 : ℤ)), ((1 : ℤ), (3 : ℤ))) ∈
      generate_moves_for_pieceF ⟨Col.white, PT.Queen⟩ (4, 3)
        init_boardF.board ∧
    sqCol (getb init_boardF.board 1 3) ≠ some Col.white := by
  refine ⟨by decide, by decide, ?_⟩
  have h := C7_no_own_color_destination init_boardF.board (4, 3)
    ⟨Col.white, PT.Queen⟩ (by decide)
    (((4 : ℤ), (3 : ℤ)), ((1 : ℤ), (3 : ℤ))) (by decide)
  simpa using h

/-! ## C8 -/

/-- C8: the three sliding generators are per-direction ray walks, and on each
ray the generated destinations are exactly the in-bounds squares
`pos + (k+1)·d` all of whose strict predecessors on the ray are empty, where
the destination itself is either empty or is the first occupied square and
holds a piece of a different colour — in particular nothing beyond the first
occupied square is ever generated. -/
theorem C8_sliding_rays :
    (∀ (pos : Int × Int) (b : Board),
        generate_rook_movesF pos b =
          rookDirsF.flatMap
            (fun d => slideF b pos d (pos.1 + d.1, pos.2 + d.2) 5)) ∧
    (∀ (pos : Int × Int) (b : Board),
        generate_bishop_movesF pos b =
          bishopDirsF.flatMap
            (fun d => slideF b pos d (pos.1 + d.1, pos.2 + d.2) 5)) ∧
    (∀ (pos : Int × Int) (b : Board),
        generate_queen_movesF pos b =
          generate_rook_movesF pos b ++ generate_bishop_movesF pos b) ∧
    (∀ (b : Board) (pos d : Int × Int),
        d ∈ rookDirsF ∨ d ∈ bishopDirsF → inB pos.1 pos.2 →
        ∀ dest : Int × Int,
          ((pos, dest) ∈ slideF b pos d (pos.1 + d.1, pos.2 + d.2) 5 ↔
            ∃ k : ℕ,
              dest = (pos.1 + ((k : ℤ) + 1) * d.1,
                      pos.2 + ((k : ℤ) + 1) * d.2) ∧
              (∀ j : ℕ, j ≤ k →
                inB (pos.1 + ((j : ℤ) + 1) * d.1)
                  (pos.2 + ((j : ℤ) + 1) * d.2)) ∧
              (∀ j : ℕ, j < k →
                getb b (pos.1 + ((j : ℤ) + 1) * d.1)
                  (pos.2 + ((j : ℤ) + 1) * d.2) = none) ∧
              (getb b (pos.1 + ((k : ℤ) + 1) * d.1)
                  (pos.2 + ((k : ℤ) + 1) * d.2) = none ∨
                (getb b (pos.1 + ((k : ℤ) + 1) * d.1)
                    (pos.2 + ((k : ℤ) + 1) * d.2) ≠ none ∧
                 sqCol (getb b (pos.1 + ((k : ℤ) + 1) * d.1)
                    (pos.2 + ((k : ℤ) + 1) * d.2)) ≠
                   sqCol (getb b pos.1 pos.2))))) := by
  refine ⟨fun pos b => rfl, fun pos b => rfl, fun pos b => rfl, ?_⟩
  intro b pos d hdir hpos dest
  have er : ∀ j : ℕ, pos.1 + d.1 + (j : ℤ) * d.1 =
      pos.1 + ((j : ℤ) + 1) * d.1 := by
    intro j
    ring
  have ec : ∀ j : ℕ, pos.2 + d.2 + (j : ℤ) * d.2 =
      pos.2 + ((j : ℤ) + 1) * d.2 := by
    intro j
    ring
  rw [slideF_mem]
  constructor
  · rintro ⟨k, hk, hmv, hinh, hempi, hlast⟩
    dsimp only at hmv hinh hempi hlast
    have hdest := congrArg Prod.snd hmv
    dsimp only at hdest
    refine ⟨k, ?_, ?_, ?_, ?_⟩
    · rw [hdest, er k, ec k]
    · intro j hj
      have h := hinh j hj
      rw [er j, ec j] at h
      exact h
    · intro j hj
      have h := hempi j hj
      rw [er j, ec j] at h
      exact h
    · rw [er k, ec k] at hlast
      rcases hlast with hl | hl
      · exact Or.inl hl
      · by_cases hn : getb b (pos.1 + ((k : ℤ) + 1) * d.1)
            (pos.2 + ((k : ℤ) + 1) * d.2) = none
        · exact Or.inl hn
        · exact Or.inr ⟨hn, hl⟩
  · rintro ⟨k, hdest, hinh, hempi, hlast⟩
    have hk5 : k < 5 := by
      have hb := hinh k le_rfl
      obtain ⟨p1, p2, p3, p4⟩ := hpos
      rcases hdir with hd | hd <;>
        simp only [rookDirsF, bishopDirsF, List.mem_cons,
          List.not_mem_nil, or_false] at hd <;>
        rcases hd with rfl | rfl | rfl | rfl <;>
        · obtain ⟨b1, b2, b3, b4⟩ := hb
          omega
    refine ⟨k, hk5, ?_, ?_, ?_, ?_⟩ <;> dsimp only
    · rw [hdest, er k, ec k]
    · intro j hj
      have h := hinh j hj
      rw [er j, ec j]
      exact h
    · intro j hj
      have h := hempi j hj
      rw [er j, ec j]
      exact h
    · rw [er k, ec k]
      rcases hlast with hl | hl
      · exact Or.inl hl
      · exact Or.inr hl.2

/-- Witness for C8 (direction and in-bounds hypotheses discharged at the
initial board): walking up the D-file from the white queen on `(4,3)`, the
ray stops at the black pawn on `(1,3)` after the two empty squares, and the
characterisation certifies the capture square. -/
theorem C8_witness :
    (((4 : ℤ), (3 : ℤ)), ((1 : ℤ), (3 : ℤ))) ∈
      slideF init_boardF.board (4, 3) (-1, 0) (3, 3) 5 := by
  have h := (C8_sliding_rays.2.2.2 init_boardF.board (4, 3) (-1, 0)
    (Or.inl (by decide)) (by decide) (1, 3)).mpr
  apply h
  refine ⟨2, by decide, ?_, ?_, Or.inr (by decide)⟩
  · intro j hj
    interval_cases j <;> decide
  · intro j hj
    interval_cases j <;> decide

/-! ## C5 -/

/-- Every generated move starts on the generator's square and ends on a
different square. -/
theorem gen_moves_shape (p : Piece) (pos : Int × Int) (b : Board) :
    ∀ mv ∈ generate_moves_for_pieceF p pos b, mv.1 = pos ∧ mv.2 ≠ pos := by
  have hstepper : ∀ (dirs : List (Int × Int)),
      (∀ x ∈ dirs, x ≠ ((0 : ℤ), (0 : ℤ))) →
      ∀ mv ∈ dirs.filterMap (fun dd =>
        if inB (pos.1 + dd.1) (pos.2 + dd.2) then
          if getb b (pos.1 + dd.1) (pos.2 + dd.2) = none ∨
              sqCol (getb b (pos.1 + dd.1) (pos.2 + dd.2)) ≠
                sqCol (getb b pos.1 pos.2) then
            some ((pos.1, pos.2), (pos.1 + dd.1, pos.2 + dd.2))
          else none
        else none),
        mv.1 = pos ∧ mv.2 ≠ pos := by
    intro dirs hdz mv hmv
    simp only [List.mem_filterMap] at hmv
    obtain ⟨dd, hdd, hsome⟩ := hmv
    by_cases h1 : inB (pos.1 + dd.1) (pos.2 + dd.2)
    · rw [if_pos h1] at hsome
      by_cases h2 : getb b (pos.1 + dd.1) (pos.2 + dd.2) = none ∨
          sqCol (getb b (pos.1 + dd.1) (pos.2 + dd.2)) ≠
            sqCol (getb b pos.1 pos.2)
      · rw [if_pos h2] at hsome
        cases hsome
        refine ⟨Prod.mk.eta, ?_⟩
        intro heq
        have e1 := congrArg Prod.fst heq
        have e2 := congrArg Prod.snd heq
        dsimp only at e1 e2
        exact hdz dd hdd (Prod.ext_iff.mpr ⟨by omega, by omega⟩)
      · rw [if_neg h2] at hsome
        cases hsome
    · rw [if_neg h1] at hsome
      cases hsome
  have hslider : ∀ (dirs : List (Int × Int)),
      (∀ x ∈ dirs, x.1 ≠ 0 ∨ x.2 ≠ 0) →
      ∀ mv ∈ dirs.flatMap (fun d =>
        slideF b pos d (pos.1 + d.1, pos.2 + d.2) 5),
        mv.1 = pos ∧ mv.2 ≠ pos := by
    intro dirs hdz mv hmv
    simp only [List.mem_flatMap] at hmv
    obtain ⟨d, hd, hmem⟩ := hmv
    obtain ⟨k, hk, hmv, hinh, hempi, hlast⟩ :=
      (slideF_mem b pos d 5 (pos.1 + d.1, pos.2 + d.2) mv).mp hmem
    subst hmv
    dsimp only
    refine ⟨rfl, ?_⟩
    intro heq
    have e1 := congrArg Prod.fst heq
    have e2 := congrArg Prod.snd heq
    dsimp only at e1 e2
    have h01 : ((k : ℤ) + 1) * d.1 = 0 := by linear_combination e1
    have h02 : ((k : ℤ) + 1) * d.2 = 0 := by linear_combination e2
    have hkpos : ((k : ℤ) + 1) ≠ 0 := by positivity
    rcases hdz d hd with hz | hz
    · rcases mul_eq_zero.mp h01 with h | h
      · exact hkpos h
      · exact hz h
    · rcases mul_eq_zero.mp h02 with h | h
      · exact hkpos h
      · exact hz h
  intro mv hmv
  rcases hp : p.pt with _ | _ | _ | _ | _ <;>
    rw [generate_moves_for_pieceF, hp] at hmv
  · exact hstepper kingDirsF (by decide) mv hmv
  · rcases List.mem_append.mp hmv with hq | hq
    · exact hslider rookDirsF (by decide) mv hq
    · exact hslider bishopDirsF (by decide) mv hq
  · exact hslider bishopDirsF (by decide) mv hmv
  · exact hstepper knightDirsF (by decide) mv hmv
  · -- pawn
    simp only [generate_pawn_movesF, List.mem_append,
      List.mem_filterMap] at hmv
    rcases hmv with hf | ⟨dc, hdc, hsome⟩
    · by_cases h1 : 0 ≤ pos.1 + (if p.col = Col.white then (-1 : ℤ) else 1) ∧
          pos.1 + (if p.col = Col.white then (-1 : ℤ) else 1) < 5 ∧
          getb b (pos.1 + (if p.col = Col.white then (-1 : ℤ) else 1)) pos.2 =
            none
      · rw [if_pos h1] at hf
        simp only [List.mem_singleton] at hf
        subst hf
        refine ⟨Prod.mk.eta, ?_⟩
        intro heq
        have e1 := congrArg Prod.fst heq
        dsimp only at e1
        by_cases hc : p.col = Col.white <;> simp only [hc, if_pos, if_neg,
          if_true, if_false] at e1 <;> omega
      · rw [if_neg h1] at hf
        cases hf
    · by_cases h1 : inB (pos.1 + (if p.col = Col.white then (-1 : ℤ) else 1))
          (pos.2 + dc)
      · rw [if_pos h1] at hsome
        by_cases h2 : getb b
              (pos.1 + (if p.col = Col.white then (-1 : ℤ) else 1))
              (pos.2 + dc) ≠ none ∧
            sqCol (getb b
              (pos.1 + (if p.col = Col.white then (-1 : ℤ) else 1))
              (pos.2 + dc)) ≠ some p.col
        · rw [if_pos h2] at hsome
          cases hsome
          refine ⟨Prod.mk.eta, ?_⟩
          intro heq
          have e1 := congrArg Prod.fst heq
          dsimp only at e1
          by_cases hc : p.col = Col.white <;> simp only [hc, if_pos, if_neg,
            if_true, if_false] at e1 <;> omega
        · rw [if_neg h2] at hsome
          cases hsome
      · rw [if_neg h1] at hsome
        cases hsome

/-- Unpacking a successful `is_valid_move` check: the start square holds a
piece of the side to move and the move is among that piece's generated
moves. -/
theorem is_valid_moveF_spec (gs : GameState) (mv : Move)
    (h : is_valid_moveF gs mv = true) :
    ∃ p : Piece, getb gs.board mv.1.1 mv.1.2 = some p ∧ p.col = gs.turn ∧
      mv ∈ generate_moves_for_pieceF p mv.1 gs.board := by
  rw [is_valid_moveF] at h
  rcases hg : getb gs.board mv.1.1 mv.1.2 with _ | p
  · rw [hg] at h
    dsimp only at h
    cases h
  · rw [hg] at h
    dsimp only at h
    by_cases hc : p.col ≠ gs.turn
    · rw [if_pos hc] at h
      cases h
    · rw [if_neg hc] at h
      exact ⟨p, rfl, not_not.mp hc, of_decide_eq_true h⟩

/-- C5: for every really applied valid move, the half-move counter becomes 0
exactly when the destination was occupied before the move and the previous
value plus one otherwise; and the draw test holds exactly once the counter
has reached 20, never at a smaller value. -/
theorem C5_capture_counter :
    (∀ (gs : GameState) (mv : Move) (cnt : ℕ),
        is_valid_moveF gs mv = true →
        (make_moveF gs mv true cnt).2 =
          (if getb gs.board mv.2.1 mv.2.2 = none then cnt + 1 else 0)) ∧
    (∀ cnt : ℕ, check_for_drawF cnt = true ↔ 20 ≤ cnt) := by
  constructor
  · intro gs mv cnt hv
    obtain ⟨p, hg, hpc, hmem⟩ := is_valid_moveF_spec gs mv hv
    have hsh := gen_moves_shape p mv.1 gs.board mv hmem
    have hne : ¬(mv.2.1 = mv.1.1 ∧ mv.2.2 = mv.1.2) := by
      rintro ⟨e1, e2⟩
      exact hsh.2 (Prod.ext_iff.mpr ⟨e1, e2⟩)
    simp only [make_moveF]
    rw [getb_setb_ne none hne]
    by_cases hd : getb gs.board mv.2.1 mv.2.2 = none
    · simp [hd]
    · simp [hd]
  · intro cnt
    simp [check_for_drawF]

/-- Witness for C5: the opening pawn push `B2 B3` is valid, has an empty
destination, and raises the counter from 5 to 6; the draw test flips exactly
at 20. -/
theorem C5_witness :
    is_valid_moveF init_boardF ((3, 1), (2, 1)) = true ∧
    (make_moveF init_boardF ((3, 1), (2, 1)) true 5).2 = 6 ∧
    check_for_drawF 20 = true ∧
    check_for_drawF 19 = false := by
  refine ⟨by decide, ?_, ?_, by decide⟩
  · have h := C5_capture_counter.1 init_boardF ((3, 1), (2, 1)) 5 (by decide)
    rw [h]
    decide
  · exact (C5_capture_counter.2 20).mpr le_rfl

/-! ## C9 -/

/-- An in-bounds `setb` is a pointwise function update at the corresponding
cell. -/
theorem setb_eq_update (b : Board) {r c : ℤ} (h : inB r c) (v : Sq) :
    setb b r c v = Function.update b
      (⟨r.toNat, by obtain ⟨_, _, _, _⟩ := h; omega⟩,
       ⟨c.toNat, by obtain ⟨_, _, _, _⟩ := h; omega⟩) v := by
  obtain ⟨h1, h2, h3, h4⟩ := h
  funext p
  rw [setb, Function.update_apply]
  refine if_congr ?_ rfl rfl
  constructor
  · rintro ⟨e1, e2⟩
    refine Prod.ext (Fin.ext ?_) (Fin.ext ?_) <;> dsimp only <;> omega
  · rintro rfl
    constructor <;> simp <;> omega

/-- Updating one cell changes the count of a square value by trading the old
content of that cell for the new one. -/
theorem countSq_update (b : Board) (q : Fin 5 × Fin 5) (v x : Sq) :
    countSq (Function.update b q v) x + (if b q = x then 1 else 0) =
      countSq b x + (if v = x then 1 else 0) := by
  have hfun : ∀ p, (if Function.update b q v p = x then (1 : ℕ) else 0) =
      Function.update (fun p => if b p = x then (1 : ℕ) else 0) q
        (if v = x then 1 else 0) p := by
    intro p
    by_cases hp : p = q
    · subst hp
      simp [Function.update_same]
    · simp [Function.update_noteq hp]
  have h1 : countSq (Function.update b q v) x =
      (if v = x then 1 else 0) +
        ∑ p in Finset.univ \ {q}, (if b p = x then (1 : ℕ) else 0) := by
    rw [countSq, Finset.sum_congr rfl fun p _ => hfun p]
    exact Finset.sum_update_of_mem (Finset.mem_univ q) _ _
  have h2 : countSq b x =
      (if b q = x then 1 else 0) +
        ∑ p in Finset.univ \ {q}, (if b p = x then (1 : ℕ) else 0) := by
    rw [countSq, ← Finset.erase_eq]
    exact (Finset.add_sum_erase _ _ (Finset.mem_univ q)).symm
  omega

/-- `countSq` after an in-bounds `setb`. -/
theorem countSq_setb (b : Board) {r c : ℤ} (h : inB r c) (v x : Sq) :
    countSq (setb b r c v) x + (if getb b r c = x then 1 else 0) =
      countSq b x + (if v = x then 1 else 0) := by
  rw [setb_eq_update b h v, getb_inB h]
  exact countSq_update b _ v x

/-- C9: applying a pawn move that lands on the promotion row (row 0 for
white, row 4 for black) puts a queen of the pawn's colour on the destination,
empties the start square, leaves every other square unchanged, and lowers the
number of same-coloured pawns on the board by exactly one — the moved pawn
exists nowhere on the resulting board. -/
theorem C9_pawn_promotion (gs : GameState) (mv : Move) (is_real : Bool)
    (cnt : ℕ) (c0 : Col)
    (hstart : getb gs.board mv.1.1 mv.1.2 = some ⟨c0, PT.Pawn⟩)
    (hrow : (c0 = Col.white ∧ mv.2.1 = 0) ∨ (c0 = Col.black ∧ mv.2.1 = 4))
    (hne : ¬(mv.2.1 = mv.1.1 ∧ mv.2.2 = mv.1.2))
    (hinS : inB mv.1.1 mv.1.2) (hinE : inB mv.2.1 mv.2.2)
    (hdest : getb gs.board mv.2.1 mv.2.2 ≠ some ⟨c0, PT.Pawn⟩) :
    getb (make_moveF gs mv is_real cnt).1.board mv.2.1 mv.2.2 =
      some ⟨c0, PT.Queen⟩ ∧
    getb (make_moveF gs mv is_real cnt).1.board mv.1.1 mv.1.2 = none ∧
    (∀ r c : ℤ, ¬(r = mv.1.1 ∧ c = mv.1.2) → ¬(r = mv.2.1 ∧ c = mv.2.2) →
      getb (make_moveF gs mv is_real cnt).1.board r c = getb gs.board r c) ∧
    countSq (make_moveF gs mv is_real cnt).1.board (some ⟨c0, PT.Pawn⟩) + 1 =
      countSq gs.board (some ⟨c0, PT.Pawn⟩) := by
  have hne' : ¬(mv.1.1 = mv.2.1 ∧ mv.1.2 = mv.2.2) := by
    rintro ⟨e1, e2⟩
    exact hne ⟨e1.symm, e2.symm⟩
  have hboard : (make_moveF gs mv is_real cnt).1.board =
      setb (setb (setb gs.board mv.1.1 mv.1.2 none) mv.2.1 mv.2.2
          (some ⟨c0, PT.Pawn⟩)) mv.2.1 mv.2.2 (some ⟨c0, PT.Queen⟩) := by
    simp only [make_moveF, hstart]
    rw [if_pos ⟨trivial, hrow⟩]
  rw [hboard]
  have hb1end :
      getb (setb gs.board mv.1.1 mv.1.2 none) mv.2.1 mv.2.2 =
        getb gs.board mv.2.1 mv.2.2 := getb_setb_ne none hne
  refine ⟨getb_setb_eq _ hinE, ?_, ?_, ?_⟩
  · rw [getb_setb_ne _ hne', getb_setb_ne _ hne']
    exact getb_setb_eq _ hinS
  · intro r c hnS hnE
    rw [getb_setb_ne _ hnE, getb_setb_ne _ hnE, getb_setb_ne _ hnS]
  · have c1 := countSq_setb gs.board hinS none (some ⟨c0, PT.Pawn⟩)
    rw [hstart, if_pos rfl, if_neg (by simp)] at c1
    have c2 := countSq_setb (setb gs.board mv.1.1 mv.1.2 none) hinE
      (some ⟨c0, PT.Pawn⟩) (some ⟨c0, PT.Pawn⟩)
    rw [hb1end, if_neg hdest, if_pos rfl] at c2
    have c3 := countSq_setb (setb (setb gs.board mv.1.1 mv.1.2 none)
        mv.2.1 mv.2.2 (some ⟨c0, PT.Pawn⟩)) hinE
      (some ⟨c0, PT.Queen⟩) (some ⟨c0, PT.Pawn⟩)
    rw [getb_setb_eq _ hinE, if_pos rfl, if_neg (by simp)] at c3
    omega

/-- A small fixture: a white pawn on `(1,1)` about to promote, plus the two
kings. -/
def promoState : GameState :=
  { board := boardOfRows
      [[none, none, none, some ⟨Col.black, PT.King⟩, none],
       [none, some ⟨Col.white, PT.Pawn⟩, none, none, none],
       [none, none, none, none, none],
       [none, none, none, none, none],
       [none, none, none, none, some ⟨Col.white, PT.King⟩]],
    turn := Col.white }

/-- Witness for C9: pushing the white pawn from `(1,1)` to `(0,1)` yields a
white queen there and removes the last white pawn from the board. -/
theorem C9_witness :
    getb (make_moveF promoState ((1, 1), (0, 1)) true 0).1.board 0 1 =
      some ⟨Col.white, PT.Queen⟩ ∧
    countSq (make_moveF promoState ((1, 1), (0, 1)) true 0).1.board
        (some ⟨Col.white, PT.Pawn⟩) + 1 =
      countSq promoState.board (some ⟨Col.white, PT.Pawn⟩) := by
  have h := C9_pawn_promotion promoState ((1, 1), (0, 1)) true 0 Col.white
    (by decide) (Or.inl ⟨rfl, rfl⟩) (by decide) (by decide) (by decide)
    (by decide)
  exact ⟨h.1, h.2.2.2⟩

/-! ## C3: alpha-beta returns the minimax score

The proof is the fail-soft alpha-beta correctness argument: a search of a
node with window `(a, b)` returns a value `v` that is exact when it lies
strictly inside the window, an upper bound on the minimax value when it fails
low (`v ≤ a`), and a lower bound when it fails high (`b ≤ v`).  At the root
window `(⊥, ⊤)` this forces equality. -/

/-- The fail-soft window property: `v` is the value returned for a node with
true minimax value `r` searched with window `(a, b)`. -/
def KMP (r v a b : Score) : Prop :=
  (v ≤ a → r ≤ v) ∧ (a < v → v < b → v = r) ∧ (b ≤ v → v ≤ r)

/-- An exact value satisfies the window property for every window. -/
theorem KMP_refl (v a b : Score) : KMP v v a b :=
  ⟨fun _ => le_rfl, fun _ _ => rfl, fun _ => le_rfl⟩

/-- The maximizing fold of `minimax` with a constant child score. -/
theorem foldMax_score (r : Score) :
    ∀ (l : List Move) (acc : Score × Option Move),
      (l.foldl (fun acc mv => if acc.1 < r then (r, some mv) else acc)
          acc).1 =
        if l.isEmpty then acc.1 else max acc.1 r := by
  intro l
  induction l with
  | nil => intro acc; simp
  | cons mv l ih =>
    intro acc
    rw [List.foldl_cons, ih]
    by_cases h : acc.1 < r
    · rw [if_pos h]
      cases hl : l.isEmpty <;>
        simp [hl, max_self, max_eq_right h.le]
    · rw [if_neg h]
      cases hl : l.isEmpty <;>
        simp [hl, max_eq_left (not_lt.mp h)]

/-- The minimizing fold of `minimax` with a constant child score. -/
theorem foldMin_score (r : Score) :
    ∀ (l : List Move) (acc : Score × Option Move),
      (l.foldl (fun acc mv => if r < acc.1 then (r, some mv) else acc)
          acc).1 =
        if l.isEmpty then acc.1 else min acc.1 r := by
  intro l
  induction l with
  | nil => intro acc; simp
  | cons mv l ih =>
    intro acc
    rw [List.foldl_cons, ih]
    by_cases h : r < acc.1
    · rw [if_pos h]
      cases hl : l.isEmpty <;>
        simp [hl, min_self, min_eq_right h.le]
    · rw [if_neg h]
      cases hl : l.isEmpty <;>
        simp [hl, min_eq_left (not_lt.mp h)]

/-- At depth 0 `alpha_beta` and `minimax` are the same computation. -/
theorem abF_eq_mmF_zero (cnt : ℕ) (heval : GameState → ℚ) (gs : GameState)
    (a b : Score) (m : Bool) :
    alphaBetaF cnt heval gs 0 a b m = minimaxF cnt heval gs 0 m := by
  rw [alphaBetaF, minimaxF]

/-- On terminal positions `alpha_beta` and `minimax` are the same
computation at every depth. -/
theorem abF_eq_mmF_terminal (cnt : ℕ) (heval : GameState → ℚ)
    (gs : GameState) (d : ℕ) (a b : Score) (m : Bool)
    (hgo : (is_game_overF gs.board cnt).1 = true) :
    alphaBetaF cnt heval gs d a b m = minimaxF cnt heval gs d m := by
  rw [alphaBetaF.eq_def, minimaxF.eq_def]
  simp only [hgo, if_true]

/-- Unfolding the maximizing expansion of `minimax` (non-terminal,
depth ≥ 1): all children are the unchanged `temp_state`, so the fold returns
`⊥` on an empty move list and the single child score otherwise. -/
theorem mmF_succ_true (cnt : ℕ) (heval : GameState → ℚ) (gs : GameState)
    (d : ℕ) (hgo : (is_game_overF gs.board cnt).1 = false) :
    (minimaxF cnt heval gs (d + 1) true).1 =
      if (valid_movesF { gs with turn := Col.white }).isEmpty then (⊥ : Score)
      else (minimaxF cnt heval { gs with turn := Col.white } d false).1 := by
  rw [minimaxF]
  simp only [hgo, Bool.false_eq_true, if_false, if_true, searchChild_eq]
  rw [foldMax_score]
  cases hl : (valid_movesF { gs with turn := Col.white }).isEmpty <;>
    simp [hl, max_eq_right (bot_le :
      (⊥ : Score) ≤ (minimaxF cnt heval { gs with turn := Col.white } d
        false).1)]

/-- Unfolding the minimizing expansion of `minimax`. -/
theorem mmF_succ_false (cnt : ℕ) (heval : GameState → ℚ) (gs : GameState)
    (d : ℕ) (hgo : (is_game_overF gs.board cnt).1 = false) :
    (minimaxF cnt heval gs (d + 1) false).1 =
      if (valid_movesF { gs with turn := Col.black }).isEmpty then (⊤ : Score)
      else (minimaxF cnt heval { gs with turn := Col.black } d true).1 := by
  rw [minimaxF]
  simp only [hgo, Bool.false_eq_true, if_false, if_true, searchChild_eq]
  rw [foldMin_score]
  cases hl : (valid_movesF { gs with turn := Col.black }).isEmpty <;>
    simp [hl, min_eq_right (le_top :
      (minimaxF cnt heval { gs with turn := Col.black } d true).1 ≤
        (⊤ : Score))]

/-- Unfolding the maximizing expansion of `alpha_beta`. -/
theorem abF_succ_true (cnt : ℕ) (heval : GameState → ℚ) (gs : GameState)
    (d : ℕ) (a b : Score) (hgo : (is_game_overF gs.board cnt).1 = false) :
    alphaBetaF cnt heval gs (d + 1) a b true =
      abMaxLoop
        (fun _ x =>
          alphaBetaF cnt heval { gs with turn := Col.white } d x b false)
        b (valid_movesF { gs with turn := Col.white }) ((⊥ : Score), none)
        a := by
  rw [alphaBetaF]
  simp only [hgo, Bool.false_eq_true, if_false, if_true, searchChild_eq]

/-- Unfolding the minimizing expansion of `alpha_beta`. -/
theorem abF_succ_false (cnt : ℕ) (heval : GameState → ℚ) (gs : GameState)
    (d : ℕ) (a b : Score) (hgo : (is_game_overF gs.board cnt).1 = false) :
    alphaBetaF cnt heval gs (d + 1) a b false =
      abMinLoop
        (fun _ bt =>
          alphaBetaF cnt heval { gs with turn := Col.black } d a bt true)
        a (valid_movesF { gs with turn := Col.black }) ((⊤ : Score), none)
        b := by
  rw [alphaBetaF]
  simp only [hgo, Bool.false_eq_true, if_false, if_true, searchChild_eq]

/-- Fail-soft window property of the maximizing alpha-beta loop: every child
search of this node evaluates the same (unchanged) position, whose minimax
value is `r`, under the window `(current alpha, β)`.  Starting from a state
whose accumulator is `⊥` or already window-correct, the loop either receives
the empty list and passes the accumulator through, or returns a
window-correct value for the entry window `(α₀, β)`. -/
theorem abMaxLoop_km (r β α₀ : Score)
    (child : Move → Score → Score × Option Move)
    (hc : ∀ (mv : Move) (a : Score), a < β → KMP r ((child mv a).1) a β) :
    ∀ (rest : List Move) (acc : Score × Option Move) (alpha : Score),
      alpha = max α₀ acc.1 → alpha < β →
      (acc.1 = (⊥ : Score) ∨ KMP r acc.1 α₀ β) →
      (rest = [] ∧ (abMaxLoop child β rest acc alpha).1 = acc.1) ∨
        KMP r (abMaxLoop child β rest acc alpha).1 α₀ β := by
  intro rest
  induction rest with
  | nil =>
    intro acc alpha _ _ _
    exact Or.inl ⟨rfl, rfl⟩
  | cons mv rest ih =>
    intro acc alpha halpha hab hinv
    right
    have hα₀a : α₀ ≤ alpha := by
      rw [halpha]
      exact le_max_left _ _
    have hacca : acc.1 ≤ alpha := by
      rw [halpha]
      exact le_max_right _ _
    simp only [abMaxLoop]
    set s := (child mv alpha).1 with hs
    have hcs : KMP r s alpha β := hc mv alpha hab
    set acc2 : Score × Option Move :=
      if acc.1 < s then (s, some mv) else acc with hacc2def
    have hacc2fst : acc2.1 = max acc.1 s := by
      rw [hacc2def]
      rcases le_or_lt s acc.1 with h | h
      · rw [if_neg (not_lt.mpr h), max_eq_left h]
      · rw [if_pos h, max_eq_right h.le]
    have hKMP' : KMP r (max acc.1 s) α₀ β := by
      refine ⟨?_, ?_, ?_⟩
      · intro hle
        have hsa : s ≤ alpha :=
          le_trans (le_trans (le_max_right acc.1 s) hle) hα₀a
        exact le_trans (hcs.1 hsa) (le_max_right acc.1 s)
      · intro hlt hltb
        rcases max_cases acc.1 s with ⟨hm, hms⟩ | ⟨hm, hms⟩
        · rw [hm] at hlt hltb ⊢
          rcases hinv with hbot | hk
          · rw [hbot] at hlt
            exact absurd hlt not_lt_bot
          · exact hk.2.1 hlt hltb
        · rw [hm] at hlt hltb ⊢
          have hax : alpha < s := by
            rw [halpha]
            exact max_lt hlt hms
          exact hcs.2.1 hax hltb
      · intro hble
        rcases max_cases acc.1 s with ⟨hm, hms⟩ | ⟨hm, hms⟩
        · exfalso
          rw [hm] at hble
          exact absurd hab (not_lt.mpr (le_trans hble hacca))
        · rw [hm] at hble ⊢
          exact hcs.2.2 hble
    have hKMPacc : KMP r acc2.1 α₀ β := by
      rw [hacc2fst]
      exact hKMP'
    by_cases hbr : β ≤ max alpha acc2.1
    · rw [if_pos hbr]
      exact hKMPacc
    · rw [if_neg hbr]
      have h1 : max alpha acc2.1 = max α₀ acc2.1 := by
        rw [hacc2fst, halpha, max_assoc, ← max_assoc acc.1 acc.1 s, max_self]
      rcases ih acc2 (max alpha acc2.1) h1 (not_le.mp hbr)
        (Or.inr hKMPacc) with ⟨_, heq⟩ | hk
      · rw [heq]
        exact hKMPacc
      · exact hk

/-- Fail-soft window property of the minimizing alpha-beta loop (dual of
`abMaxLoop_km`). -/
theorem abMinLoop_km (r α₀ β₀ : Score)
    (child : Move → Score → Score × Option Move)
    (hc : ∀ (mv : Move) (bt : Score), α₀ < bt →
      KMP r ((child mv bt).1) α₀ bt) :
    ∀ (rest : List Move) (acc : Score × Option Move) (beta : Score),
      beta = min β₀ acc.1 → α₀ < beta →
      (acc.1 = (⊤ : Score) ∨ KMP r acc.1 α₀ β₀) →
      (rest = [] ∧ (abMinLoop child α₀ rest acc beta).1 = acc.1) ∨
        KMP r (abMinLoop child α₀ rest acc beta).1 α₀ β₀ := by
  intro rest
  induction rest with
  | nil =>
    intro acc beta _ _ _
    exact Or.inl ⟨rfl, rfl⟩
  | cons mv rest ih =>
    intro acc beta hbeta hab hinv
    right
    have hβ₀b : beta ≤ β₀ := by
      rw [hbeta]
      exact min_le_left _ _
    have haccb : beta ≤ acc.1 := by
      rw [hbeta]
      exact min_le_right _ _
    simp only [abMinLoop]
    set s := (child mv beta).1 with hs
    have hcs : KMP r s α₀ beta := hc mv beta hab
    set acc2 : Score × Option Move :=
      if s < acc.1 then (s, some mv) else acc with hacc2def
    have hacc2fst : acc2.1 = min acc.1 s := by
      rw [hacc2def]
      rcases le_or_lt acc.1 s with h | h
      · rw [if_neg (not_lt.mpr h), min_eq_left h]
      · rw [if_pos h, min_eq_right h.le]
    have hKMP' : KMP r (min acc.1 s) α₀ β₀ := by
      refine ⟨?_, ?_, ?_⟩
      · intro hle
        rcases min_cases acc.1 s with ⟨hm, hms⟩ | ⟨hm, hms⟩
        · rw [hm] at hle ⊢
          rcases hinv with htop | hk
          · exfalso
            rw [htop] at hle
            exact absurd hab (not_lt.mpr (le_trans le_top hle))
          · exact hk.1 hle
        · rw [hm] at hle ⊢
          exact hcs.1 hle
      · intro hlt hltb
        rcases min_cases acc.1 s with ⟨hm, hms⟩ | ⟨hm, hms⟩
        · rw [hm] at hlt hltb ⊢
          rcases hinv with htop | hk
          · exfalso
            rw [htop] at hltb
            exact absurd hltb not_top_lt
          · exact hk.2.1 hlt hltb
        · rw [hm] at hlt hltb ⊢
          have hsb : s < beta := by
            rw [hbeta]
            exact lt_min hltb hms
          exact hcs.2.1 hlt hsb
      · intro hble
        rcases min_cases acc.1 s with ⟨hm, hms⟩ | ⟨hm, hms⟩
        · rw [hm] at hble ⊢
          rcases hinv with htop | hk
          · rw [htop] at hms ⊢
            have hstop : s = ⊤ := top_le_iff.mp hms
            have hsr := hcs.2.2 (by rw [hstop]; exact le_top)
            rw [hstop] at hsr
            exact hsr
          · exact hk.2.2 hble
        · rw [hm] at hble ⊢
          exact hcs.2.2 (le_trans hβ₀b hble)
    have hKMPacc : KMP r acc2.1 α₀ β₀ := by
      rw [hacc2fst]
      exact hKMP'
    by_cases hbr : min beta acc2.1 ≤ α₀
    · rw [if_pos hbr]
      exact hKMPacc
    · rw [if_neg hbr]
      have h1 : min beta acc2.1 = min β₀ acc2.1 := by
        rw [hacc2fst, hbeta, min_assoc, ← min_assoc acc.1 acc.1 s, min_self]
      rcases ih acc2 (min beta acc2.1) h1 (not_le.mp hbr)
        (Or.inr hKMPacc) with ⟨_, heq⟩ | hk
      · rw [heq]
        exact hKMPacc
      · exact hk

/-- The fail-soft window property holds between `alpha_beta` and `minimax`
at every state, depth, side and window. -/
theorem KM_main (cnt : ℕ) (heval : GameState → ℚ) :
    ∀ (d : ℕ) (gs : GameState) (m : Bool) (a b : Score), a < b →
      KMP ((minimaxF cnt heval gs d m).1)
        ((alphaBetaF cnt heval gs d a b m).1) a b := by
  intro d
  induction d with
  | zero =>
    intro gs m a b _
    rw [abF_eq_mmF_zero]
    exact KMP_refl _ _ _
  | succ d ih =>
    intro gs m a b hab
    by_cases hgo : (is_game_overF gs.board cnt).1 = true
    · rw [abF_eq_mmF_terminal cnt heval gs (d + 1) a b m hgo]
      exact KMP_refl _ _ _
    · have hgo' : (is_game_overF gs.board cnt).1 = false := by
        simpa using hgo
      cases m
      · rw [mmF_succ_false cnt heval gs d hgo',
          abF_succ_false cnt heval gs d a b hgo']
        rcases hmv : valid_movesF { gs with turn := Col.black }
          with _ | ⟨mv, rest⟩
        · simp only [List.isEmpty_nil, if_true, abMinLoop]
          exact KMP_refl _ _ _
        · have hloop := abMinLoop_km
            ((minimaxF cnt heval { gs with turn := Col.black } d true).1) a b
            (fun _ bt =>
              alphaBetaF cnt heval { gs with turn := Col.black } d a bt true)
            (fun _ bt hbt => ih { gs with turn := Col.black } true a bt hbt)
            (mv :: rest) ((⊤ : Score), none) b (by simp) hab (Or.inl rfl)
          rcases hloop with ⟨hnil, _⟩ | hk
          · exact absurd hnil (List.cons_ne_nil mv rest)
          · simpa using hk
      · rw [mmF_succ_true cnt heval gs d hgo',
          abF_succ_true cnt heval gs d a b hgo']
        rcases hmv : valid_movesF { gs with turn := Col.white }
          with _ | ⟨mv, rest⟩
        · simp only [List.isEmpty_nil, if_true, abMaxLoop]
          exact KMP_refl _ _ _
        · have hloop := abMaxLoop_km
            ((minimaxF cnt heval { gs with turn := Col.white } d false).1) b a
            (fun _ x =>
              alphaBetaF cnt heval { gs with turn := Col.white } d x b false)
            (fun _ x hx => ih { gs with turn := Col.white } false x b hx)
            (mv :: rest) ((⊥ : Score), none) a (by simp) hab (Or.inl rfl)
          rcases hloop with ⟨hnil, _⟩ | hk
          · exact absurd hnil (List.cons_ne_nil mv rest)
          · simpa using hk

/-- C3: for every identical (state, depth, evaluation-function) triple and
either side to move, with the deadline never reached, the alpha-beta search
started on the full window `(−∞, +∞)` returns exactly the same best score as
the minimax search. -/
theorem C3_alphabeta_score_eq_minimax (cnt : ℕ) (heval : GameState → ℚ)
    (gs : GameState) (d : ℕ) (m : Bool) :
    (alphaBetaF cnt heval gs d ⊥ ⊤ m).1 = (minimaxF cnt heval gs d m).1 := by
  have h := KM_main cnt heval d gs m ⊥ ⊤ bot_lt_top
  rcases le_or_lt (alphaBetaF cnt heval gs d ⊥ ⊤ m).1 ⊥ with hle | hgt
  · rw [le_bot_iff.mp hle, le_bot_iff.mp (le_trans (h.1 hle) hle)]
  · rcases lt_or_le (alphaBetaF cnt heval gs d ⊥ ⊤ m).1 ⊤ with hlt | hge
    · exact h.2.1 hgt hlt
    · rw [top_le_iff.mp hge, top_le_iff.mp (le_trans hge (h.2.2 hge))]
